import Mathlib

/-!
Verification development for the AVX2 k-quant matrix-multiplication kernel
in llamafile (src/llamafile/iqk_mul_mat.cpp).

The SIMD kernels are embedded at scalar granularity: every 256-bit vector of
the source is represented through the per-lane values it holds, and every
intrinsic is translated into the arithmetic it performs on those lanes
(including 16-bit saturation of maddubs and 32-bit wrap-around of madd and
add_epi32).  Quantized block fields are stored as the byte or word bit
patterns held in memory (arbitrary naturals; the embedding applies the same
masks and modular reductions the hardware applies).  IEEE-754 single
precision accumulation is idealized as exact rational arithmetic; the half
to float conversions GGML_FP16_TO_FP32 are abstracted by storing the
already-converted scale values as rationals in the block structures.
-/

namespace Iqk

/-- Signed 8-bit interpretation of the low byte of a bit pattern
(the effect of cvtepi8 style sign extension). -/
def toInt8 (b : ℕ) : ℤ := if b % 256 < 128 then (b % 256 : ℤ) else (b % 256 : ℤ) - 256

/-- Signed 16-bit interpretation of the low 16 bits of a bit pattern. -/
def toInt16 (b : ℕ) : ℤ := if b % 65536 < 32768 then (b % 65536 : ℤ) else (b % 65536 : ℤ) - 65536

/-- Unsigned reinterpretation of a signed byte value, as done by the left
operand of maddubs. -/
def toU8 (a : ℤ) : ℤ := a % 256

/-- Two's-complement wrap-around to 8 bits. -/
def wrap8 (z : ℤ) : ℤ := (z + 128) % 256 - 128

/-- Two's-complement wrap-around to 16 bits. -/
def wrap16 (z : ℤ) : ℤ := (z + 32768) % 65536 - 32768

/-- Two's-complement wrap-around to 32 bits (madd_epi16 and add_epi32). -/
def wrap32 (z : ℤ) : ℤ := (z + 2147483648) % 4294967296 - 2147483648

/-- Signed 16-bit saturation applied by maddubs_epi16 to each pair sum. -/
def sat16 (z : ℤ) : ℤ := max (-32768) (min 32767 z)

/-- Sum of f 0 + f 1 + ... + f (n-1) over the integers. -/
def isum : ℕ → (ℕ → ℤ) → ℤ
  | 0, _ => 0
  | n + 1, f => isum n f + f n

/-- Sum of f 0 + f 1 + ... + f (n-1) over the rationals. -/
def qsum : ℕ → (ℕ → ℚ) → ℚ
  | 0, _ => 0
  | n + 1, f => qsum n f + f n

/-- The exact value of hsum_float_8: split the 8 float lanes in two halves,
add, then two horizontal add steps.  In exact arithmetic the tree evaluates
to the (so-parenthesized) sum of the eight lanes. -/
def hsum_float_8 (f : ℕ → ℚ) : ℚ := ((f 0 + f 4) + (f 2 + f 6)) + ((f 1 + f 5) + (f 3 + f 7))

/-- The exact value of hsum_float_4 on four float lanes. -/
def hsum_float_4 (f : ℕ → ℚ) : ℚ := (f 0 + f 2) + (f 1 + f 3)

/-- Byte b of a 32-bit (or wider) word. -/
def byteOf (w b : ℕ) : ℕ := (w >>> (8 * b)) &&& 255

/-- Little-endian 32-bit word w of a byte sequence (the source loads the
12 scale bytes as six little-endian uint16 values and pairs them; for bytes
this is the same little-endian assembly). -/
def le32 (s : ℕ → ℕ) (w : ℕ) : ℕ :=
  s (4 * w) ||| (s (4 * w + 1) <<< 8) ||| (s (4 * w + 2) <<< 16) ||| (s (4 * w + 3) <<< 24)

/-- Byte k of a 256-bit vector whose bytes are given by b, after
srli_epi16 by s (the shift acts inside each 16-bit lane). -/
def srli16 (b : ℕ → ℕ) (s k : ℕ) : ℕ :=
  ((((b (2 * (k / 2)) &&& 255) + 256 * (b (2 * (k / 2) + 1) &&& 255)) >>> s) >>> (8 * (k % 2))) &&& 255

/-- Byte k of a 256-bit vector whose bytes are given by b, after
slli_epi16 by s. -/
def slli16 (b : ℕ → ℕ) (s k : ℕ) : ℕ :=
  ((((b (2 * (k / 2)) &&& 255) + 256 * (b (2 * (k / 2) + 1) &&& 255)) <<< s) >>> (8 * (k % 2))) &&& 255

/-!  make_q4_scales (iqk_mul_mat.cpp lines 40-49): unpack the 12 packed
scale/min bytes of Q4_K and Q5_K into four 32-bit words. -/

/-- Direct translation of make_q4_scales: the three little-endian words
a0, a1, a2 of the 12 input bytes give the four output words aux32[0..3]. -/
def make_q4_scales (s : ℕ → ℕ) : ℕ → ℕ
  | 0 => le32 s 0 &&& 0x3f3f3f3f
  | 1 => ((le32 s 2 >>> 0) &&& 0x0f0f0f0f) ||| ((le32 s 0 >>> 2) &&& 0x30303030)
  | 2 => le32 s 1 &&& 0x3f3f3f3f
  | _ => ((le32 s 2 >>> 4) &&& 0x0f0f0f0f) ||| ((le32 s 1 >>> 2) &&& 0x30303030)

/-- Sub-block scale j (j < 8) as used by the Q4_K/Q5_K kernels: the kernels
build mins_and_scales = cvtepu8(set_epi32(aux32[3], aux32[2], aux32[1],
aux32[0])) and take lanes 0..7 (the bytes of aux32[0] and aux32[1]) as the
eight scales that multiply the integer dot products
(iqk_mul_mat.cpp lines 386-390, 403-404). -/
def q4kScale (s : ℕ → ℕ) (j : ℕ) : ℕ := byteOf (make_q4_scales s (j / 4)) (j % 4)

/-- Sub-block min j (j < 8) as used by the Q4_K/Q5_K kernels: lanes 8..15 of
mins_and_scales, i.e. the bytes of aux32[2] and aux32[3], which multiply the
Q8_K block sums (iqk_mul_mat.cpp lines 388, 391-396). -/
def q4kMin (s : ℕ → ℕ) (j : ℕ) : ℕ := byteOf (make_q4_scales s (2 + j / 4)) (j % 4)

/-- The scale assignment asserted by the specification sentence, which pairs
o0 with o2 as the eight scales.  Stated from the spec wording, to be
compared with q4kScale. -/
def q4kSpecScale (s : ℕ → ℕ) (j : ℕ) : ℕ := byteOf (make_q4_scales s (2 * (j / 4))) (j % 4)

/-- The min assignment asserted by the specification sentence, which pairs
o1 with o3 as the eight mins.  Stated from the spec wording, to be compared
with q4kMin. -/
def q4kSpecMin (s : ℕ → ℕ) (j : ℕ) : ℕ := byteOf (make_q4_scales s (2 * (j / 4) + 1)) (j % 4)

/-- Concrete 12-byte scales input for the C3 counterexample: byte 8 is the
only nonzero byte, so the third little-endian word a2 is 7 and the words
a0, a1 vanish. -/
def c3bytes : ℕ → ℕ := fun j => if j = 8 then 7 else 0

theorem byteOf_and (x y b : ℕ) : byteOf (x &&& y) b = byteOf x b &&& byteOf y b := by
  unfold byteOf
  apply Nat.eq_of_testBit_eq
  intro i
  simp only [Nat.testBit_and, Nat.testBit_shiftRight]
  cases hx : x.testBit (8 * b + i) <;> cases hy : y.testBit (8 * b + i) <;>
    cases hm : Nat.testBit 255 i <;> simp

theorem byteOf_or (x y b : ℕ) : byteOf (x ||| y) b = byteOf x b ||| byteOf y b := by
  unfold byteOf
  apply Nat.eq_of_testBit_eq
  intro i
  simp only [Nat.testBit_and, Nat.testBit_or, Nat.testBit_shiftRight]
  cases hx : x.testBit (8 * b + i) <;> cases hy : y.testBit (8 * b + i) <;>
    cases hm : Nat.testBit 255 i <;> simp

theorem byteOf_and_3f_lt (A b : ℕ) (hb : b < 4) : byteOf (A &&& 0x3f3f3f3f) b < 64 := by
  rw [byteOf_and]
  have h1 : byteOf 0x3f3f3f3f b = 63 := by interval_cases b <;> decide
  rw [h1, show (64 : ℕ) = 2 ^ 6 by norm_num]
  exact Nat.and_lt_two_pow _ (by norm_num)

theorem byteOf_or_masked_lt (A B b : ℕ) (hb : b < 4) :
    byteOf ((A &&& 0x0f0f0f0f) ||| (B &&& 0x30303030)) b < 64 := by
  rw [byteOf_or, byteOf_and, byteOf_and]
  have h1 : byteOf 0x0f0f0f0f b = 15 := by interval_cases b <;> decide
  have h2 : byteOf 0x30303030 b = 48 := by interval_cases b <;> decide
  rw [h1, h2, show (64 : ℕ) = 2 ^ 6 by norm_num]
  exact Nat.or_lt_two_pow (Nat.and_lt_two_pow _ (by norm_num))
    (Nat.and_lt_two_pow _ (by norm_num))

theorem make_q4_scales_byte_lt (s : ℕ → ℕ) (i b : ℕ) (hi : i < 4) (hb : b < 4) :
    byteOf (make_q4_scales s i) b < 64 := by
  interval_cases i
  · exact byteOf_and_3f_lt _ _ hb
  · rw [show make_q4_scales s 1 =
        ((le32 s 2) &&& 0x0f0f0f0f) ||| ((le32 s 0 >>> 2) &&& 0x30303030) by
      simp [make_q4_scales]]
    exact byteOf_or_masked_lt _ _ _ hb
  · exact byteOf_and_3f_lt _ _ hb
  · exact byteOf_or_masked_lt _ _ _ hb

/-- C3, counterexample.  On the 12-byte input whose only nonzero byte is
byte 8 (value 7), the kernel uses 7 as sub-block scale 4 (a byte of o1) and
0 as sub-block min 0 (a byte of o2), while the claimed pairing (scales in
o0 and o2, mins in o1 and o3) predicts scale 4 = 0 and min 0 = 7. -/
theorem c3_counterexample :
    q4kScale c3bytes 4 = 7 ∧ q4kSpecScale c3bytes 4 = 0 ∧
    q4kMin c3bytes 0 = 0 ∧ q4kSpecMin c3bytes 0 = 7 ∧
    q4kScale c3bytes 4 ≠ q4kSpecScale c3bytes 4 ∧
    q4kMin c3bytes 0 ≠ q4kSpecMin c3bytes 0 := by decide

/-- C3, amended.  For every 12-byte input, make_q4_scales produces exactly
the four claimed 32-bit words o0..o3 from the three little-endian words
a0, a1, a2, and every byte of the four outputs is a 6-bit quantity; the
eight sub-block scales used by the kernel are the bytes of o0 and o1, and
the eight sub-block mins are the bytes of o2 and o3 (not o0/o2 and o1/o3 as
the specification sentence pairs them). -/
theorem c3_amended : ∀ s : ℕ → ℕ,
    (make_q4_scales s 0 = le32 s 0 &&& 0x3f3f3f3f) ∧
    (make_q4_scales s 2 = le32 s 1 &&& 0x3f3f3f3f) ∧
    (make_q4_scales s 1 = (le32 s 2 &&& 0x0f0f0f0f) ||| ((le32 s 0 >>> 2) &&& 0x30303030)) ∧
    (make_q4_scales s 3 = ((le32 s 2 >>> 4) &&& 0x0f0f0f0f) ||| ((le32 s 1 >>> 2) &&& 0x30303030)) ∧
    (∀ j, j < 8 → q4kScale s j < 64 ∧ q4kMin s j < 64) ∧
    (∀ j, j < 8 → q4kScale s j = byteOf (make_q4_scales s (j / 4)) (j % 4) ∧
                  q4kMin s j = byteOf (make_q4_scales s (2 + j / 4)) (j % 4)) := by
  intro s
  refine ⟨rfl, rfl, by simp [make_q4_scales], rfl, ?_, fun j hj => ⟨rfl, rfl⟩⟩
  intro j hj
  have hj4 : j % 4 < 4 := Nat.mod_lt _ (by norm_num)
  have hd : j / 4 < 2 := Nat.div_lt_of_lt_mul (by omega)
  exact ⟨make_q4_scales_byte_lt s _ _ (by omega) hj4,
         make_q4_scales_byte_lt s _ _ (by omega) hj4⟩

/-!  The signed-times-signed trick of the IQ4_XS kernel (iqk_mul_mat.cpp
lines 669-673): ux = sign_epi8(x, x), sy = sign_epi8(y, x), then
maddubs_epi16(ux, sy). -/

/-- Lane semantics of sign_epi8 on signed byte values: negate a (with 8-bit
wrap-around) when b is negative, zero when b is zero, pass through
otherwise. -/
def sign8 (a b : ℤ) : ℤ := if b < 0 then wrap8 (-a) else if b = 0 then 0 else a

/-- 16-bit lane t of the mul_signed lambda: maddubs of the sign-adjusted
bytes, treating the left operand as unsigned and saturating the pair sum. -/
def mul_signed (x y : ℕ → ℤ) (t : ℕ) : ℤ :=
  sat16 (toU8 (sign8 (x (2 * t)) (x (2 * t))) * sign8 (y (2 * t)) (x (2 * t)) +
         toU8 (sign8 (x (2 * t + 1)) (x (2 * t + 1))) * sign8 (y (2 * t + 1)) (x (2 * t + 1)))

/-- First operand of the C4 counterexample: a single -1 in lane 0. -/
def c4x : ℕ → ℤ := fun k => if k = 0 then -1 else 0

/-- Second operand of the C4 counterexample: a single -128 in lane 0. -/
def c4y : ℕ → ℤ := fun k => if k = 0 then -128 else 0

/-- C4, counterexample.  For x with lane 0 = -1 and y with lane 0 = -128
(both valid signed 8-bit vectors), the absolute-value-times-signed-product
trick yields -128 for the first adjacent pair while the true signed pair
sum is 128: negating -128 wraps back to -128, so the trick is not exact on
all pairs of signed 8-bit vectors. -/
theorem c4_counterexample :
    mul_signed c4x c4y 0 = -128 ∧ c4x 0 * c4y 0 + c4x 1 * c4y 1 = 128 ∧
    mul_signed c4x c4y 0 ≠ c4x 0 * c4y 0 + c4x 1 * c4y 1 := by decide

theorem sign_trick (a b : ℤ) (ha1 : -128 ≤ a) (ha2 : a ≤ 127)
    (hb1 : -128 ≤ b) (hb2 : b ≤ 127) (hab : a < 0 → b ≠ -128) :
    toU8 (sign8 a a) * sign8 b a = a * b := by
  unfold sign8 toU8 wrap8
  rcases lt_trichotomy a 0 with h | h | h
  · have hbne : b ≠ -128 := hab h
    simp only [if_pos h]
    have e2 : (-b + 128) % 256 - 128 = -b := by omega
    rw [e2]
    rcases eq_or_ne a (-128) with rfl | hane
    · have e1 : ((-(-128 : ℤ) + 128) % 256 - 128) % 256 = 128 := by decide
      rw [e1]; ring
    · have e1 : ((-a + 128) % 256 - 128) % 256 = -a := by omega
      rw [e1]; ring
  · subst h; norm_num
  · have hlt : ¬a < 0 := by omega
    have hne : ¬a = 0 := by omega
    simp only [if_neg hlt, if_neg hne]
    have e1 : a % 256 = a := by omega
    rw [e1]

theorem sign_prod_bound (a b : ℤ) (ha1 : -128 ≤ a) (ha2 : a ≤ 127)
    (hb1 : -128 ≤ b) (hb2 : b ≤ 127) (hab : a < 0 → b ≠ -128) :
    -16256 ≤ a * b ∧ a * b ≤ 16256 := by
  rcases le_or_lt 0 a with h | h
  · constructor <;> nlinarith
  · have hbne : b ≠ -128 := hab h
    have hb3 : -127 ≤ b := by omega
    constructor <;> nlinarith

/-- C4, amended.  For every pair of signed 8-bit vectors x, y such that no
lane has x negative together with y equal to -128, every 16-bit lane of the
mul_signed trick equals the exact adjacent-pair sum of the signed products
(in particular the pair sum never saturates). -/
theorem c4_amended (x y : ℕ → ℤ) (t : ℕ)
    (hx : ∀ k, -128 ≤ x k ∧ x k ≤ 127) (hy : ∀ k, -128 ≤ y k ∧ y k ≤ 127)
    (hxy : ∀ k, x k < 0 → y k ≠ -128) :
    mul_signed x y t = x (2 * t) * y (2 * t) + x (2 * t + 1) * y (2 * t + 1) := by
  unfold mul_signed
  rw [sign_trick _ _ (hx _).1 (hx _).2 (hy _).1 (hy _).2 (hxy _),
      sign_trick _ _ (hx _).1 (hx _).2 (hy _).1 (hy _).2 (hxy _)]
  have h1 := sign_prod_bound _ _ (hx (2 * t)).1 (hx (2 * t)).2
    (hy (2 * t)).1 (hy (2 * t)).2 (hxy (2 * t))
  have h2 := sign_prod_bound _ _ (hx (2 * t + 1)).1 (hx (2 * t + 1)).2
    (hy (2 * t + 1)).1 (hy (2 * t + 1)).2 (hxy (2 * t + 1))
  unfold sat16
  omega

/-- Concrete vector for the C4 witness. -/
def c4wx : ℕ → ℤ := fun k => if k = 0 then -5 else 3

/-- Concrete vector for the C4 witness. -/
def c4wy : ℕ → ℤ := fun k => if k = 1 then -7 else 100

theorem c4_amended_witness :
    mul_signed c4wx c4wy 0 = c4wx 0 * c4wy 0 + c4wx 1 * c4wy 1 :=
  c4_amended c4wx c4wy 0
    (fun k => by unfold c4wx; split <;> omega)
    (fun k => by unfold c4wy; split <;> omega)
    (fun k hk => by unfold c4wy; unfold c4wx at hk; split <;> omega)

/-!  Block structures.  Quantized fields hold the byte (or 16-bit word) bit
patterns stored in memory; the d / dmin fields hold the FP32 values
obtained from GGML_FP16_TO_FP32 (FP32 directly for Q8_K), idealized as
rationals. -/

/-- One Q8_K super-block: FP32 scale, 256 signed 8-bit quants, 16 signed
16-bit group sums. -/
structure block_q8_K where
  d : ℚ
  qs : ℕ → ℕ
  bsums : ℕ → ℕ

/-- One Q3_K super-block: 32 high-bit mask bytes, 64 low-2-bit quant bytes,
12 packed scale bytes, block scale. -/
structure block_q3_K where
  hmask : ℕ → ℕ
  qs : ℕ → ℕ
  scales : ℕ → ℕ
  d : ℚ

theorem toInt8_range (n : ℕ) : -128 ≤ toInt8 n ∧ toInt8 n < 128 := by
  unfold toInt8; split <;> omega

theorem toInt16_range (n : ℕ) : -32768 ≤ toInt16 n ∧ toInt16 n < 32768 := by
  unfold toInt16; split <;> omega

theorem wrap32_id (z : ℤ) (h1 : -2147483648 ≤ z) (h2 : z < 2147483648) : wrap32 z = z := by
  unfold wrap32; omega

theorem mul_range (x y a b : ℤ) (hx1 : -a ≤ x) (hx2 : x ≤ a) (hy1 : -b ≤ y) (hy2 : y ≤ b) :
    -(a * b) ≤ x * y ∧ x * y ≤ a * b := by
  have ha : 0 ≤ a := by omega
  have hb : 0 ≤ b := by omega
  constructor <;> nlinarith

/-!  Q3_K micro-kernel, mul_mat_q3_K_q8_K_T (iqk_mul_mat.cpp lines
227-341), scalarized per (A-row, B-column) pair: each accumulator array in
the source is indexed only at the column being produced, so the value
written to C for one (ix, iy) is a function of that A row and that B
column alone. -/

/-- The three little-endian 32-bit words of the 12 Q3_K scale bytes
(read through a uint16 pointer in the source). -/
def q3_aux (x : block_q3_K) (w : ℕ) : ℕ := le32 x.scales w

/-- The four words of scales128 as assembled by _mm_set_epi32 in the scale
setup block (lines 262-266); word w holds scale bytes 4w..4w+3. -/
def q3_scales_word (x : block_q3_K) : ℕ → ℕ
  | 0 => (q3_aux x 0 &&& 0x0f0f0f0f) ||| ((q3_aux x 2 <<< 4) &&& 0x30303030)
  | 1 => (q3_aux x 1 &&& 0x0f0f0f0f) ||| ((q3_aux x 2 <<< 2) &&& 0x30303030)
  | 2 => ((q3_aux x 0 >>> 4) &&& 0x0f0f0f0f) ||| ((q3_aux x 2 >>> 0) &&& 0x30303030)
  | _ => ((q3_aux x 1 >>> 4) &&& 0x0f0f0f0f) ||| ((q3_aux x 2 >>> 2) &&& 0x30303030)

/-- Signed sub-block scale j of a Q3_K block: byte j of scales128, minus 32
(sub_epi8 by m32 wraps to 8 bits, cvtepi8_epi16 then sign-extends). -/
def q3_sc (x : block_q3_K) (j : ℕ) : ℤ :=
  toInt8 (byteOf (q3_scales_word x (j / 4)) (j % 4) + 224)

/-- Byte k of hbits[j]: the loaded hmask bytes for j = 0, the same vector
shifted right by 4 inside 16-bit lanes for j = 1 (line 281-282). -/
def q3_hb (x : block_q3_K) (j k : ℕ) : ℕ :=
  if j = 0 then x.hmask k &&& 255 else srli16 (fun t => x.hmask t) 4 k

/-- Byte k of q3h_l for 128-half j: hbits[j] shifted left by 2, left by 1,
unshifted, or right by 1 (l = 0..3), masked to the single bit 0x04
(lines 298-301). -/
def q3_h (x : block_q3_K) (j l k : ℕ) : ℕ :=
  (match l with
   | 0 => slli16 (q3_hb x j) 2 k
   | 1 => slli16 (q3_hb x j) 1 k
   | 2 => q3_hb x j k
   | _ => srli16 (q3_hb x j) 1 k) &&& 4

/-- Byte k of the unsigned 3-bit quant vector q3_l for 128-half j: low two
bits from the qs load shifted right by 2l, high bit OR-ed in from q3h
(lines 304-307). -/
def q3_q (x : block_q3_K) (j l k : ℕ) : ℕ :=
  (srli16 (fun t => x.qs (32 * j + t)) (2 * l) k &&& 3) ||| q3_h x j l k

/-- 16-bit lane t of p16_l: maddubs of the quant bytes with the Q8_K quant
load 4j+l (lines 311-314). -/
def q3_p16 (x : block_q3_K) (y : block_q8_K) (j l t : ℕ) : ℤ :=
  sat16 (q3_q x j l (2 * t) * toInt8 (y.qs (32 * (4 * j + l) + 2 * t)) +
         q3_q x j l (2 * t + 1) * toInt8 (y.qs (32 * (4 * j + l) + 2 * t + 1)))

/-- 32-bit lane u of madd(scales_l, p16_l): the get_scale_shuffle_16
broadcast fills the low 128-bit half (output lanes 0-3) with scale 8j+2l
and the high half (output lanes 4-7) with scale 8j+2l+1
(lines 55-63, 290-293, 317-320). -/
def q3_p32 (x : block_q3_K) (y : block_q8_K) (j l u : ℕ) : ℤ :=
  wrap32 (q3_sc x (8 * j + 2 * l + u / 4) * q3_p16 x y j l (2 * u) +
          q3_sc x (8 * j + 2 * l + u / 4) * q3_p16 x y j l (2 * u + 1))

/-- 32-bit lane u of the integer accumulator sumi after the first j
128-halves: two add_epi32 steps per half (lines 322-323). -/
def q3_sumi (x : block_q3_K) (y : block_q8_K) : ℕ → ℕ → ℤ
  | 0, _ => 0
  | j + 1, u =>
      wrap32 (wrap32 (q3_sumi x y j u + wrap32 (q3_p32 x y j 0 u + q3_p32 x y j 1 u)) +
              wrap32 (q3_p32 x y j 2 u + q3_p32 x y j 3 u))

/-- 32-bit lane u of prod = madd_epi16(all_scales, bsums) (line 271). -/
def q3_prod (x : block_q3_K) (y : block_q8_K) (u : ℕ) : ℤ :=
  wrap32 (q3_sc x (2 * u) * toInt16 (y.bsums (2 * u)) +
          q3_sc x (2 * u + 1) * toInt16 (y.bsums (2 * u + 1)))

/-- Float lane u of accd after the first nb super-blocks: fmadd of
vd = d3 * q8.scale with the converted sumi lanes (line 330). -/
def q3_accd (x : ℕ → block_q3_K) (y : ℕ → block_q8_K) : ℕ → ℕ → ℚ
  | 0, _ => 0
  | i + 1, u => q3_accd x y i u + ((x i).d * (y i).d) * (q3_sumi (x i) (y i) 2 u : ℤ)

/-- Float lane u of accm after the first nb super-blocks: fmadd of vd with
the converted prod lanes (line 272). -/
def q3_accm (x : ℕ → block_q3_K) (y : ℕ → block_q8_K) : ℕ → ℕ → ℚ
  | 0, _ => 0
  | i + 1, u => q3_accm x y i u + ((x i).d * (y i).d) * (q3_prod (x i) (y i) u : ℤ)

/-- The value the Q3_K micro-kernel writes to C for one (row, column) pair
over nb super-blocks (line 336). -/
def mul_mat_q3_K_q8_K (nb : ℕ) (x : ℕ → block_q3_K) (y : ℕ → block_q8_K) : ℚ :=
  hsum_float_8 (q3_accd x y nb) - 4 * hsum_float_8 (q3_accm x y nb)

theorem q3_prod_exact (x : block_q3_K) (y : block_q8_K) (u : ℕ) :
    q3_prod x y u = q3_sc x (2 * u) * toInt16 (y.bsums (2 * u)) +
                    q3_sc x (2 * u + 1) * toInt16 (y.bsums (2 * u + 1)) := by
  unfold q3_prod
  have hsc : ∀ j, -128 ≤ q3_sc x j ∧ q3_sc x j < 128 := fun j => toInt8_range _
  have h1 := mul_range (q3_sc x (2 * u)) (toInt16 (y.bsums (2 * u))) 128 32768
    (hsc _).1 (le_of_lt (hsc _).2) (toInt16_range _).1 (le_of_lt (toInt16_range _).2)
  have h2 := mul_range (q3_sc x (2 * u + 1)) (toInt16 (y.bsums (2 * u + 1))) 128 32768
    (hsc _).1 (le_of_lt (hsc _).2) (toInt16_range _).1 (le_of_lt (toInt16_range _).2)
  exact wrap32_id _ (by omega) (by omega)

theorem q3_prod_sum (x : block_q3_K) (y : block_q8_K) :
    isum 8 (fun u => q3_prod x y u) =
    isum 16 (fun j => q3_sc x j * toInt16 (y.bsums j)) := by
  simp only [isum, q3_prod_exact]
  norm_num
  ring

theorem q3_accm_hsum (x : ℕ → block_q3_K) (y : ℕ → block_q8_K) :
    ∀ nb, hsum_float_8 (q3_accm x y nb) =
      qsum nb (fun i => (x i).d * (y i).d *
        (isum 16 (fun j => q3_sc (x i) j * toInt16 ((y i).bsums j)) : ℤ))
  | 0 => by simp [hsum_float_8, q3_accm, qsum]
  | nb + 1 => by
      have ih := q3_accm_hsum x y nb
      have hp := q3_prod_sum (x nb) (y nb)
      simp only [hsum_float_8, q3_accm] at ih ⊢
      simp only [qsum]
      rw [← ih, ← hp]
      push_cast [isum]
      ring

/-!  Q6_K micro-kernel, mul_mat_q6_K_q8_K_T (iqk_mul_mat.cpp lines
549-639), scalarized per (A-row, B-column) pair in the same way. -/

/-- One Q6_K super-block: 128 low-nibble bytes, 64 high-2-bit bytes, 16
signed 8-bit scale bytes, block scale. -/
structure block_q6_K where
  ql : ℕ → ℕ
  qh : ℕ → ℕ
  scales : ℕ → ℕ
  d : ℚ

/-- Signed sub-block scale j of a Q6_K block: lane j of
scales16 = cvtepi8_epi16(loadu scales) (lines 577-578). -/
def q6_sc (x : block_q6_K) (j : ℕ) : ℤ := toInt8 (x.scales j)

/-- Byte k of q4h_l for 128-half j: the qh load shifted left by 4, left by
2, unshifted, or right by 2 (l = 0..3), masked with 0x30 (lines 602-605). -/
def q6_h (x : block_q6_K) (j l k : ℕ) : ℕ :=
  (match l with
   | 0 => slli16 (fun t => x.qh (32 * j + t)) 4 k
   | 1 => slli16 (fun t => x.qh (32 * j + t)) 2 k
   | 2 => x.qh (32 * j + k) &&& 255
   | _ => srli16 (fun t => x.qh (32 * j + t)) 2 k) &&& 48

/-- Byte k of the unsigned 6-bit quant vector q6_l for 128-half j: low
nibble of q4bits1/q4bits2 (or their high nibble for l = 2, 3) OR-ed with
the q4h bits (lines 607-610). -/
def q6_q (x : block_q6_K) (j l k : ℕ) : ℕ :=
  (match l with
   | 0 => x.ql (64 * j + k) &&& 15
   | 1 => x.ql (64 * j + 32 + k) &&& 15
   | 2 => srli16 (fun t => x.ql (64 * j + t)) 4 k &&& 15
   | _ => srli16 (fun t => x.ql (64 * j + 32 + t)) 4 k &&& 15) ||| q6_h x j l k

/-- 16-bit lane t of p16_l: maddubs with the Q8_K quant load 4j+l
(lines 614-617). -/
def q6_p16 (x : block_q6_K) (y : block_q8_K) (j l t : ℕ) : ℤ :=
  sat16 (q6_q x j l (2 * t) * toInt8 (y.qs (32 * (4 * j + l) + 2 * t)) +
         q6_q x j l (2 * t + 1) * toInt8 (y.qs (32 * (4 * j + l) + 2 * t + 1)))

/-- 32-bit lane u of madd(scale_l, p16_l) (lines 593-596, 619-622): the
get_scale_shuffle_16 broadcast fills the low 128-bit half (output lanes
0-3) with scale 8j+2l and the high half (output lanes 4-7) with scale
8j+2l+1. -/
def q6_p32 (x : block_q6_K) (y : block_q8_K) (j l u : ℕ) : ℤ :=
  wrap32 (q6_sc x (8 * j + 2 * l + u / 4) * q6_p16 x y j l (2 * u) +
          q6_sc x (8 * j + 2 * l + u / 4) * q6_p16 x y j l (2 * u + 1))

/-- 32-bit lane u of sumi after the first j 128-halves (line 624). -/
def q6_sumi (x : block_q6_K) (y : block_q8_K) : ℕ → ℕ → ℤ
  | 0, _ => 0
  | j + 1, u =>
      wrap32 (q6_sumi x y j u +
        wrap32 (wrap32 (q6_p32 x y j 0 u + q6_p32 x y j 1 u) +
                wrap32 (q6_p32 x y j 2 u + q6_p32 x y j 3 u)))

/-- 32-bit lane u of prod = madd_epi16(scales16, bsums) (line 584). -/
def q6_prod (x : block_q6_K) (y : block_q8_K) (u : ℕ) : ℤ :=
  wrap32 (q6_sc x (2 * u) * toInt16 (y.bsums (2 * u)) +
          q6_sc x (2 * u + 1) * toInt16 (y.bsums (2 * u + 1)))

/-- Float lane u of accd after the first nb super-blocks (line 630). -/
def q6_accd (x : ℕ → block_q6_K) (y : ℕ → block_q8_K) : ℕ → ℕ → ℚ
  | 0, _ => 0
  | i + 1, u => q6_accd x y i u + ((x i).d * (y i).d) * (q6_sumi (x i) (y i) 2 u : ℤ)

/-- Float lane u of accm after the first nb super-blocks (line 585). -/
def q6_accm (x : ℕ → block_q6_K) (y : ℕ → block_q8_K) : ℕ → ℕ → ℚ
  | 0, _ => 0
  | i + 1, u => q6_accm x y i u + ((x i).d * (y i).d) * (q6_prod (x i) (y i) u : ℤ)

/-- The value the Q6_K micro-kernel writes to C for one (row, column) pair
over nb super-blocks (line 635). -/
def mul_mat_q6_K_q8_K (nb : ℕ) (x : ℕ → block_q6_K) (y : ℕ → block_q8_K) : ℚ :=
  hsum_float_8 (q6_accd x y nb) - 32 * hsum_float_8 (q6_accm x y nb)

theorem q6_prod_exact (x : block_q6_K) (y : block_q8_K) (u : ℕ) :
    q6_prod x y u = q6_sc x (2 * u) * toInt16 (y.bsums (2 * u)) +
                    q6_sc x (2 * u + 1) * toInt16 (y.bsums (2 * u + 1)) := by
  unfold q6_prod
  have hsc : ∀ j, -128 ≤ q6_sc x j ∧ q6_sc x j < 128 := fun j => toInt8_range _
  have h1 := mul_range (q6_sc x (2 * u)) (toInt16 (y.bsums (2 * u))) 128 32768
    (hsc _).1 (le_of_lt (hsc _).2) (toInt16_range _).1 (le_of_lt (toInt16_range _).2)
  have h2 := mul_range (q6_sc x (2 * u + 1)) (toInt16 (y.bsums (2 * u + 1))) 128 32768
    (hsc _).1 (le_of_lt (hsc _).2) (toInt16_range _).1 (le_of_lt (toInt16_range _).2)
  exact wrap32_id _ (by omega) (by omega)

theorem q6_prod_sum (x : block_q6_K) (y : block_q8_K) :
    isum 8 (fun u => q6_prod x y u) =
    isum 16 (fun j => q6_sc x j * toInt16 (y.bsums j)) := by
  simp only [isum, q6_prod_exact]
  norm_num
  ring

theorem q6_accm_hsum (x : ℕ → block_q6_K) (y : ℕ → block_q8_K) :
    ∀ nb, hsum_float_8 (q6_accm x y nb) =
      qsum nb (fun i => (x i).d * (y i).d *
        (isum 16 (fun j => q6_sc (x i) j * toInt16 ((y i).bsums j)) : ℤ))
  | 0 => by simp [hsum_float_8, q6_accm, qsum]
  | nb + 1 => by
      have ih := q6_accm_hsum x y nb
      have hp := q6_prod_sum (x nb) (y nb)
      simp only [hsum_float_8, q6_accm] at ih ⊢
      simp only [qsum]
      rw [← ih, ← hp]
      push_cast [isum]
      ring

/-- C2, amended.  For every Q3_K (resp. Q6_K) input and column, the value
written to C is the integer-path sum (the horizontal sum of accd) minus
K = 4 (resp. K = 32) times the accumulated scale-times-bsum term, where the
accumulated term for super-block i carries the factor d_A[i] * d_B[iy][i]:
the per-super-block floating correction is -K * d * d_B * sum over j of
sc[j] * bsum_B[j], not -K * d * sum of sc[j] * bsum_B[j]. -/
theorem c2_amended :
    (∀ (nb : ℕ) (x : ℕ → block_q3_K) (y : ℕ → block_q8_K),
      mul_mat_q3_K_q8_K nb x y =
        hsum_float_8 (q3_accd x y nb) -
        4 * qsum nb (fun i => (x i).d * (y i).d *
          (isum 16 (fun j => q3_sc (x i) j * toInt16 ((y i).bsums j)) : ℤ))) ∧
    (∀ (nb : ℕ) (x : ℕ → block_q6_K) (y : ℕ → block_q8_K),
      mul_mat_q6_K_q8_K nb x y =
        hsum_float_8 (q6_accd x y nb) -
        32 * qsum nb (fun i => (x i).d * (y i).d *
          (isum 16 (fun j => q6_sc (x i) j * toInt16 ((y i).bsums j)) : ℤ))) := by
  constructor
  · intro nb x y
    unfold mul_mat_q3_K_q8_K
    rw [q3_accm_hsum]
  · intro nb x y
    unfold mul_mat_q6_K_q8_K
    rw [q6_accm_hsum]

/-- Q3_K block for the C2 counterexample: d = 1, all quants and high bits
zero, scale byte 0 equal to 33 (so sub-block scale 0 decodes to 1 - 32 =
-31 and all other sub-block scales to -32). -/
def c2x3 : ℕ → block_q3_K := fun _ =>
  { hmask := fun _ => 0
    qs := fun _ => 0
    scales := fun j => if j = 0 then 33 else 0
    d := 1 }

/-- Q8_K block for the C2 counterexample: column scale d_B = 2, quant 0
equal to 1 and all other quants zero, so bsums[0] = 1 and the other group
sums vanish (a well-formed Q8_K block). -/
def c2y3 : ℕ → block_q8_K := fun _ =>
  { d := 2
    qs := fun k => if k = 0 then 1 else 0
    bsums := fun j => if j = 0 then 1 else 0 }

/-- C2, counterexample.  On a single Q3_K super-block with d = 1, zero
quants, sub-block scale 0 = -31, against a Q8_K column with d_B = 2 and
bsums[0] = 1, the kernel writes 248 = -4 * (d * d_B * (-31)), while the
claimed correction -4 * d * sum of sc[j] * bsum_B[j] (without the d_B
factor) predicts 124. -/
theorem c2_counterexample :
    mul_mat_q3_K_q8_K 1 c2x3 c2y3 = 248 ∧
    hsum_float_8 (q3_accd c2x3 c2y3 1) -
      4 * qsum 1 (fun i => (c2x3 i).d *
        (isum 16 (fun j => q3_sc (c2x3 i) j * toInt16 ((c2y3 i).bsums j)) : ℤ)) = 124 ∧
    mul_mat_q3_K_q8_K 1 c2x3 c2y3 ≠
      hsum_float_8 (q3_accd c2x3 c2y3 1) -
      4 * qsum 1 (fun i => (c2x3 i).d *
        (isum 16 (fun j => q3_sc (c2x3 i) j * toInt16 ((c2y3 i).bsums j)) : ℤ)) := by
  have hs : q3_sumi (c2x3 0) (c2y3 0) 2 0 = 0 ∧ q3_sumi (c2x3 0) (c2y3 0) 2 1 = 0 ∧
      q3_sumi (c2x3 0) (c2y3 0) 2 2 = 0 ∧ q3_sumi (c2x3 0) (c2y3 0) 2 3 = 0 ∧
      q3_sumi (c2x3 0) (c2y3 0) 2 4 = 0 ∧ q3_sumi (c2x3 0) (c2y3 0) 2 5 = 0 ∧
      q3_sumi (c2x3 0) (c2y3 0) 2 6 = 0 ∧ q3_sumi (c2x3 0) (c2y3 0) 2 7 = 0 := by decide
  have hp : q3_prod (c2x3 0) (c2y3 0) 0 = -31 ∧ q3_prod (c2x3 0) (c2y3 0) 1 = 0 ∧
      q3_prod (c2x3 0) (c2y3 0) 2 = 0 ∧ q3_prod (c2x3 0) (c2y3 0) 3 = 0 ∧
      q3_prod (c2x3 0) (c2y3 0) 4 = 0 ∧ q3_prod (c2x3 0) (c2y3 0) 5 = 0 ∧
      q3_prod (c2x3 0) (c2y3 0) 6 = 0 ∧ q3_prod (c2x3 0) (c2y3 0) 7 = 0 := by decide
  have hsc : isum 16 (fun j => q3_sc (c2x3 0) j * toInt16 ((c2y3 0).bsums j)) = -31 := by
    decide
  obtain ⟨hs0, hs1, hs2, hs3, hs4, hs5, hs6, hs7⟩ := hs
  obtain ⟨hp0, hp1, hp2, hp3, hp4, hp5, hp6, hp7⟩ := hp
  have hxd : (c2x3 0).d = 1 := rfl
  have hyd : (c2y3 0).d = 2 := rfl
  norm_num [mul_mat_q3_K_q8_K, hsum_float_8, q3_accd, q3_accm, qsum,
    hs0, hs1, hs2, hs3, hs4, hs5, hs6, hs7, hp0, hp1, hp2, hp3, hp4, hp5, hp6, hp7,
    hsc, hxd, hyd]

/-!  Q4_K micro-kernel, mul_mat_q4_K_q8_K_T (iqk_mul_mat.cpp lines
347-448), scalarized per (A-row, B-column) pair.  The template has two
accumulation shapes: for nrc_y <= 2 the high nibbles are taken unshifted
(q4bits & 0xF0) into a second accumulator pair that is scaled by 0.0625 at
reduction time; for nrc_y >= 4 the high nibbles are shifted down
((q4bits >> 4) & 0xF) and both planes share one accumulator.  Both shapes
are modelled. -/

/-- One Q4_K super-block: block scale, block min scale, 12 packed
scale/min bytes, 128 quant bytes. -/
structure block_q4_K where
  d : ℚ
  dmin : ℚ
  scales : ℕ → ℕ
  qs : ℕ → ℕ

/-- 16-bit lane t of q8s = hadd_epi16 of the two bsums halves
(line 393). -/
def q4_q8s (y : block_q8_K) (t : ℕ) : ℤ :=
  wrap16 (toInt16 (y.bsums (2 * t)) + toInt16 (y.bsums (2 * t + 1)))

/-- 32-bit lane v of prod = madd_epi16(mins, q8s) (line 394). -/
def q4_prod (x : block_q4_K) (y : block_q8_K) (v : ℕ) : ℤ :=
  wrap32 (q4kMin x.scales (2 * v) * q4_q8s y (2 * v) +
          q4kMin x.scales (2 * v + 1) * q4_q8s y (2 * v + 1))

/-- Float lane v of the 128-bit min accumulator accm after the first nb
super-blocks: fmadd of c * q8.scale with the converted prod lanes, where
c = -dmin (lines 380, 395). -/
def q4_accm (x : ℕ → block_q4_K) (y : ℕ → block_q8_K) : ℕ → ℕ → ℚ
  | 0, _ => 0
  | i + 1, v => q4_accm x y i v + (-(x i).dmin * (y i).d) * (q4_prod (x i) (y i) v : ℤ)

/-- Byte k of q4l for 64-group j: low nibble of the qs load (line 406). -/
def q4_l (x : block_q4_K) (j k : ℕ) : ℕ := x.qs (32 * j + k) &&& 15

/-- Byte k of q4h in the nrc_y <= 2 shape: the unshifted high nibble
q4bits & 0xF0 (line 407, first branch). -/
def q4_h_lo (x : block_q4_K) (j k : ℕ) : ℕ := x.qs (32 * j + k) &&& 240

/-- Byte k of q4h in the nrc_y >= 4 shape: (q4bits >> 4) & 0xF
(line 407, second branch). -/
def q4_h_hi (x : block_q4_K) (j k : ℕ) : ℕ :=
  srli16 (fun t => x.qs (32 * j + t)) 4 k &&& 15

/-- 16-bit lane t of maddubs(q4l, q8l) for 64-group j (lines 410, 413). -/
def q4_p16_l (x : block_q4_K) (y : block_q8_K) (j t : ℕ) : ℤ :=
  sat16 (q4_l x j (2 * t) * toInt8 (y.qs (32 * (2 * j) + 2 * t)) +
         q4_l x j (2 * t + 1) * toInt8 (y.qs (32 * (2 * j) + 2 * t + 1)))

/-- 16-bit lane t of maddubs(q4h, q8h) for 64-group j, nrc_y <= 2 shape
(lines 411, 414). -/
def q4_p16_h_lo (x : block_q4_K) (y : block_q8_K) (j t : ℕ) : ℤ :=
  sat16 (q4_h_lo x j (2 * t) * toInt8 (y.qs (32 * (2 * j + 1) + 2 * t)) +
         q4_h_lo x j (2 * t + 1) * toInt8 (y.qs (32 * (2 * j + 1) + 2 * t + 1)))

/-- 16-bit lane t of maddubs(q4h, q8h) for 64-group j, nrc_y >= 4 shape
(lines 411, 416-417). -/
def q4_p16_h_hi (x : block_q4_K) (y : block_q8_K) (j t : ℕ) : ℤ :=
  sat16 (q4_h_hi x j (2 * t) * toInt8 (y.qs (32 * (2 * j + 1) + 2 * t)) +
         q4_h_hi x j (2 * t + 1) * toInt8 (y.qs (32 * (2 * j + 1) + 2 * t + 1)))

/-- 32-bit lane u of madd(scales_l, maddubs(q4l, q8l)): the shuffle_8
broadcast puts scale 2j in every 16-bit lane (lines 403, 413/416). -/
def q4_p32_l (x : block_q4_K) (y : block_q8_K) (j u : ℕ) : ℤ :=
  wrap32 ((q4kScale x.scales (2 * j) : ℤ) * q4_p16_l x y j (2 * u) +
          (q4kScale x.scales (2 * j) : ℤ) * q4_p16_l x y j (2 * u + 1))

/-- 32-bit lane u of madd(scales_h, maddubs(q4h, q8h)), nrc_y <= 2 shape
(lines 404, 414). -/
def q4_p32_h_lo (x : block_q4_K) (y : block_q8_K) (j u : ℕ) : ℤ :=
  wrap32 ((q4kScale x.scales (2 * j + 1) : ℤ) * q4_p16_h_lo x y j (2 * u) +
          (q4kScale x.scales (2 * j + 1) : ℤ) * q4_p16_h_lo x y j (2 * u + 1))

/-- 32-bit lane u of madd(scales_h, maddubs(q4h, q8h)), nrc_y >= 4 shape
(lines 404, 417). -/
def q4_p32_h_hi (x : block_q4_K) (y : block_q8_K) (j u : ℕ) : ℤ :=
  wrap32 ((q4kScale x.scales (2 * j + 1) : ℤ) * q4_p16_h_hi x y j (2 * u) +
          (q4kScale x.scales (2 * j + 1) : ℤ) * q4_p16_h_hi x y j (2 * u + 1))

/-- 32-bit lane u of sumi[2iy+0] after the first j 64-groups, nrc_y <= 2
shape (line 413). -/
def q4_sumi0 (x : block_q4_K) (y : block_q8_K) : ℕ → ℕ → ℤ
  | 0, _ => 0
  | j + 1, u => wrap32 (q4_sumi0 x y j u + q4_p32_l x y j u)

/-- 32-bit lane u of sumi[2iy+1] after the first j 64-groups, nrc_y <= 2
shape (line 414). -/
def q4_sumi1 (x : block_q4_K) (y : block_q8_K) : ℕ → ℕ → ℤ
  | 0, _ => 0
  | j + 1, u => wrap32 (q4_sumi1 x y j u + q4_p32_h_lo x y j u)

/-- 32-bit lane u of the single sumi after the first j 64-groups,
nrc_y >= 4 shape (line 418). -/
def q4_sumi_hi (x : block_q4_K) (y : block_q8_K) : ℕ → ℕ → ℤ
  | 0, _ => 0
  | j + 1, u => wrap32 (q4_sumi_hi x y j u + wrap32 (q4_p32_l x y j u + q4_p32_h_hi x y j u))

/-- Float lane u of accd[2iy+0] after nb super-blocks (line 426). -/
def q4_accd0 (x : ℕ → block_q4_K) (y : ℕ → block_q8_K) : ℕ → ℕ → ℚ
  | 0, _ => 0
  | i + 1, u => q4_accd0 x y i u + ((x i).d * (y i).d) * (q4_sumi0 (x i) (y i) 4 u : ℤ)

/-- Float lane u of accd[2iy+1] after nb super-blocks (line 427). -/
def q4_accd1 (x : ℕ → block_q4_K) (y : ℕ → block_q8_K) : ℕ → ℕ → ℚ
  | 0, _ => 0
  | i + 1, u => q4_accd1 x y i u + ((x i).d * (y i).d) * (q4_sumi1 (x i) (y i) 4 u : ℤ)

/-- Float lane u of the single accd after nb super-blocks, nrc_y >= 4
shape (line 432). -/
def q4_accd_hi (x : ℕ → block_q4_K) (y : ℕ → block_q8_K) : ℕ → ℕ → ℚ
  | 0, _ => 0
  | i + 1, u => q4_accd_hi x y i u + ((x i).d * (y i).d) * (q4_sumi_hi (x i) (y i) 4 u : ℤ)

/-- The value the Q4_K micro-kernel writes to C for one (row, column) pair
in the nrc_y <= 2 shape (line 440). -/
def mul_mat_q4_K_q8_K_lo (nb : ℕ) (x : ℕ → block_q4_K) (y : ℕ → block_q8_K) : ℚ :=
  hsum_float_8 (q4_accd0 x y nb) + 0.0625 * hsum_float_8 (q4_accd1 x y nb) +
    hsum_float_4 (q4_accm x y nb)

/-- The value the Q4_K micro-kernel writes to C for one (row, column) pair
in the nrc_y >= 4 shape (lines 442-443): the 256-bit accd is folded to 128
bits, added to accm and horizontally summed. -/
def mul_mat_q4_K_q8_K_hi (nb : ℕ) (x : ℕ → block_q4_K) (y : ℕ → block_q8_K) : ℚ :=
  hsum_float_4 (fun v => (q4_accd_hi x y nb v + q4_accd_hi x y nb (v + 4)) + q4_accm x y nb v)

/-- Reconstructed unsigned 4-bit quant of element e of a Q4_K super-block
per the format semantics: element 64g+r takes the low nibble of byte
32g+r for r < 32 and the high nibble of byte 32g+(r-32) otherwise. -/
def q4_ref_quant (x : block_q4_K) (e : ℕ) : ℕ :=
  if e % 64 < 32 then x.qs (32 * (e / 64) + e % 64) &&& 15
  else (x.qs (32 * (e / 64) + (e % 64 - 32)) >>> 4) &&& 15

/-- The value asserted by the specification guarantee for one (row,
column) pair of the Q4_K kernel, stated from the spec words: sum over
super-blocks of d_A * d_B * intDot plus the min correction
-dmin * d_B * sum of m[j] times the quant sums of B, with intDot the exact
integer sum over sub-blocks of sc[j] * sum of q_A * q_B. -/
def q4_K_spec_value (nb : ℕ) (x : ℕ → block_q4_K) (y : ℕ → block_q8_K) : ℚ :=
  qsum nb (fun i =>
    (x i).d * (y i).d *
      (isum 8 (fun j => (q4kScale (x i).scales j : ℤ) *
        isum 32 (fun k => (q4_ref_quant (x i) (32 * j + k) : ℤ) *
          toInt8 ((y i).qs (32 * j + k)))) : ℤ) -
    (x i).dmin * (y i).d *
      (isum 8 (fun j => (q4kMin (x i).scales j : ℤ) *
        isum 32 (fun k => toInt8 ((y i).qs (32 * j + k)))) : ℤ))

/-- Q4_K block of the saturation failing input: d = 1, dmin = 0, sub-block
scale 1 equal to 1 and all other scales and mins zero, and quant bytes 0
and 1 equal to 0xF0 (elements 32 and 33 have quant value 15, all other
quants zero).  This is a legal quantizer output. -/
def c1x : ℕ → block_q4_K := fun _ =>
  { d := 1
    dmin := 0
    scales := fun j => if j = 1 then 1 else 0
    qs := fun k => if k < 2 then 240 else 0 }

/-- Q8_K block of the saturation failing input: d_B = 1, quants 32 and 33
equal to 127, all other quants zero, bsums consistent (group 2 sums to
254).  This is a legal quantizer output. -/
def c1y : ℕ → block_q8_K := fun _ =>
  { d := 1
    qs := fun k => if k = 32 ∨ k = 33 then 127 else 0
    bsums := fun j => if j = 2 then 254 else 0 }

/-- C1, code bug.  On the failing input, the maddubs pair sum of the
nrc_y <= 2 Q4_K shape is 240*127 + 240*127 = 60960, which saturates to
32767; the kernel therefore writes 32767/16 = 2047.9375, while the exact
guarantee formula of the specification evaluates to 3810.  The integer
path is not saturation-free for Q4_K at M <= 2. -/
theorem c1_q4K_saturation :
    mul_mat_q4_K_q8_K_lo 1 c1x c1y = 32767 / 16 ∧
    q4_K_spec_value 1 c1x c1y = 3810 ∧
    mul_mat_q4_K_q8_K_lo 1 c1x c1y ≠ q4_K_spec_value 1 c1x c1y := by
  have h0 : q4_sumi0 (c1x 0) (c1y 0) 4 0 = 0 ∧ q4_sumi0 (c1x 0) (c1y 0) 4 1 = 0 ∧
      q4_sumi0 (c1x 0) (c1y 0) 4 2 = 0 ∧ q4_sumi0 (c1x 0) (c1y 0) 4 3 = 0 ∧
      q4_sumi0 (c1x 0) (c1y 0) 4 4 = 0 ∧ q4_sumi0 (c1x 0) (c1y 0) 4 5 = 0 ∧
      q4_sumi0 (c1x 0) (c1y 0) 4 6 = 0 ∧ q4_sumi0 (c1x 0) (c1y 0) 4 7 = 0 := by decide
  have h1 : q4_sumi1 (c1x 0) (c1y 0) 4 0 = 32767 ∧ q4_sumi1 (c1x 0) (c1y 0) 4 1 = 0 ∧
      q4_sumi1 (c1x 0) (c1y 0) 4 2 = 0 ∧ q4_sumi1 (c1x 0) (c1y 0) 4 3 = 0 ∧
      q4_sumi1 (c1x 0) (c1y 0) 4 4 = 0 ∧ q4_sumi1 (c1x 0) (c1y 0) 4 5 = 0 ∧
      q4_sumi1 (c1x 0) (c1y 0) 4 6 = 0 ∧ q4_sumi1 (c1x 0) (c1y 0) 4 7 = 0 := by decide
  have hdot : isum 8 (fun j => (q4kScale (c1x 0).scales j : ℤ) *
      isum 32 (fun k => (q4_ref_quant (c1x 0) (32 * j + k) : ℤ) *
        toInt8 ((c1y 0).qs (32 * j + k)))) = 3810 := by decide
  have hmin : isum 8 (fun j => (q4kMin (c1x 0).scales j : ℤ) *
      isum 32 (fun k => toInt8 ((c1y 0).qs (32 * j + k)))) = 0 := by decide
  obtain ⟨g0, g1, g2, g3, g4, g5, g6, g7⟩ := h0
  obtain ⟨f0, f1, f2, f3, f4, f5, f6, f7⟩ := h1
  have hxd : (c1x 0).d = 1 := rfl
  have hxm : (c1x 0).dmin = 0 := rfl
  have hyd : (c1y 0).d = 1 := rfl
  norm_num [mul_mat_q4_K_q8_K_lo, q4_K_spec_value, hsum_float_8, hsum_float_4,
    q4_accd0, q4_accd1, q4_accm, qsum, g0, g1, g2, g3, g4, g5, g6, g7,
    f0, f1, f2, f3, f4, f5, f6, f7, hdot, hmin, hxd, hxm, hyd]

/-- C5, code bug.  On the same failing input the nrc_y <= 2 Q4_K shape
writes 32767/16 = 2047.9375 (its maddubs pair saturates at 60960 to
32767) while the nrc_y >= 4 shape writes the exact 3810: the two
micro-scheduling variants are observably different. -/
theorem c5_variant_divergence :
    mul_mat_q4_K_q8_K_lo 1 c1x c1y = 32767 / 16 ∧
    mul_mat_q4_K_q8_K_hi 1 c1x c1y = 3810 ∧
    mul_mat_q4_K_q8_K_lo 1 c1x c1y ≠ mul_mat_q4_K_q8_K_hi 1 c1x c1y := by
  have h0 : q4_sumi0 (c1x 0) (c1y 0) 4 0 = 0 ∧ q4_sumi0 (c1x 0) (c1y 0) 4 1 = 0 ∧
      q4_sumi0 (c1x 0) (c1y 0) 4 2 = 0 ∧ q4_sumi0 (c1x 0) (c1y 0) 4 3 = 0 ∧
      q4_sumi0 (c1x 0) (c1y 0) 4 4 = 0 ∧ q4_sumi0 (c1x 0) (c1y 0) 4 5 = 0 ∧
      q4_sumi0 (c1x 0) (c1y 0) 4 6 = 0 ∧ q4_sumi0 (c1x 0) (c1y 0) 4 7 = 0 := by decide
  have h1 : q4_sumi1 (c1x 0) (c1y 0) 4 0 = 32767 ∧ q4_sumi1 (c1x 0) (c1y 0) 4 1 = 0 ∧
      q4_sumi1 (c1x 0) (c1y 0) 4 2 = 0 ∧ q4_sumi1 (c1x 0) (c1y 0) 4 3 = 0 ∧
      q4_sumi1 (c1x 0) (c1y 0) 4 4 = 0 ∧ q4_sumi1 (c1x 0) (c1y 0) 4 5 = 0 ∧
      q4_sumi1 (c1x 0) (c1y 0) 4 6 = 0 ∧ q4_sumi1 (c1x 0) (c1y 0) 4 7 = 0 := by decide
  have h2 : q4_sumi_hi (c1x 0) (c1y 0) 4 0 = 3810 ∧ q4_sumi_hi (c1x 0) (c1y 0) 4 1 = 0 ∧
      q4_sumi_hi (c1x 0) (c1y 0) 4 2 = 0 ∧ q4_sumi_hi (c1x 0) (c1y 0) 4 3 = 0 ∧
      q4_sumi_hi (c1x 0) (c1y 0) 4 4 = 0 ∧ q4_sumi_hi (c1x 0) (c1y 0) 4 5 = 0 ∧
      q4_sumi_hi (c1x 0) (c1y 0) 4 6 = 0 ∧ q4_sumi_hi (c1x 0) (c1y 0) 4 7 = 0 := by decide
  obtain ⟨g0, g1, g2, g3, g4, g5, g6, g7⟩ := h0
  obtain ⟨f0, f1, f2, f3, f4, f5, f6, f7⟩ := h1
  obtain ⟨e0, e1, e2, e3, e4, e5, e6, e7⟩ := h2
  have hxd : (c1x 0).d = 1 := rfl
  have hxm : (c1x 0).dmin = 0 := rfl
  have hyd : (c1y 0).d = 1 := rfl
  norm_num [mul_mat_q4_K_q8_K_lo, mul_mat_q4_K_q8_K_hi, hsum_float_8, hsum_float_4,
    q4_accd0, q4_accd1, q4_accd_hi, q4_accm, qsum, g0, g1, g2, g3, g4, g5, g6, g7,
    f0, f1, f2, f3, f4, f5, f6, f7, e0, e1, e2, e3, e4, e5, e6, e7, hxd, hxm, hyd]

/-!  IQ4_XS micro-kernel, mul_mat_iq4_xs_q8_K_T (iqk_mul_mat.cpp lines
645-718), scalarized per (A-row, B-column) pair.  Each of the M templated
columns is produced by the same per-column computation, so the statements
below cover every M in {1, 2, 4, 8}. -/

/-- One IQ4_XS super-block: block scale, 16-bit high scale bits, 4 low
scale bytes, 128 quant index bytes. -/
structure block_iq4_xs where
  d : ℚ
  scales_h : ℕ
  scales_l : ℕ → ℕ
  qs : ℕ → ℕ

/-- The fixed non-linear codebook (line 650). -/
def kvalues_iq4nl : ℕ → ℤ
  | 0 => -127 | 1 => -104 | 2 => -83 | 3 => -65
  | 4 => -49 | 5 => -35 | 6 => -22 | 7 => -10
  | 8 => 1 | 9 => 13 | 10 => 25 | 11 => 38
  | 12 => 53 | 13 => 69 | 14 => 89 | _ => 113

/-- tmp32 = scales_h | (scales_h << 14) computed in uint32 (line 686);
the field is a uint16 pattern. -/
def iq4_tmp32 (x : block_iq4_xs) : ℕ :=
  ((x.scales_h &&& 65535) ||| ((x.scales_h &&& 65535) <<< 14)) &&& 4294967295

/-- The 4 scales_l bytes read as one little-endian uint32 (line 688). -/
def iq4_sl32 (x : block_iq4_xs) : ℕ := le32 x.scales_l 0

/-- Signed sub-block scale v (v < 8) of an IQ4_XS block (lines 687-689):
16-bit lane v of srlv(tmp32, {0,4,8,12}) & 3 << 4, OR-ed with the nibble
shuffle of scales_l (byte b holds (sl32 >> 4b) & 0xF), minus 32.  The
combined value is at most 63 so the 16-bit add by -32 never wraps. -/
def iq4_sc (x : block_iq4_xs) (v : ℕ) : ℤ :=
  (((((iq4_tmp32 x >>> (4 * (v / 2) + 16 * (v % 2))) &&& 3) <<< 4) |||
    ((iq4_sl32 x >>> (4 * v)) &&& 15)) : ℤ) - 32

/-- Byte k of q4b_1 for 64-group j: the codebook applied to the low
nibbles (bytes 0..15) and high nibbles (bytes 16..31) of the first 16-byte
qs load (lines 664-668, 694). -/
def iq4_q1 (x : block_iq4_xs) (j k : ℕ) : ℤ :=
  if k < 16 then kvalues_iq4nl (x.qs (32 * j + k) &&& 15)
  else kvalues_iq4nl ((x.qs (32 * j + (k - 16)) >>> 4) &&& 15)

/-- Byte k of q4b_2 for 64-group j: same for the second 16-byte qs load
(line 695). -/
def iq4_q2 (x : block_iq4_xs) (j k : ℕ) : ℤ :=
  if k < 16 then kvalues_iq4nl (x.qs (32 * j + 16 + k) &&& 15)
  else kvalues_iq4nl ((x.qs (32 * j + 16 + (k - 16)) >>> 4) &&& 15)

/-- 16-bit lane t of p16_1 = mul_signed(q4b_1, q8 load 2j) (line 699). -/
def iq4_p16_1 (x : block_iq4_xs) (y : block_q8_K) (j t : ℕ) : ℤ :=
  mul_signed (iq4_q1 x j) (fun k => toInt8 (y.qs (32 * (2 * j) + k))) t

/-- 16-bit lane t of p16_2 = mul_signed(q4b_2, q8 load 2j+1) (line 700). -/
def iq4_p16_2 (x : block_iq4_xs) (y : block_q8_K) (j t : ℕ) : ℤ :=
  mul_signed (iq4_q2 x j) (fun k => toInt8 (y.qs (32 * (2 * j + 1) + k))) t

/-- 32-bit lane u of p_1 = madd(p16_1, scales_1): the shuffle_8 broadcast
puts scale 2j in every lane (lines 696, 701). -/
def iq4_p32_1 (x : block_iq4_xs) (y : block_q8_K) (j u : ℕ) : ℤ :=
  wrap32 (iq4_p16_1 x y j (2 * u) * iq4_sc x (2 * j) +
          iq4_p16_1 x y j (2 * u + 1) * iq4_sc x (2 * j))

/-- 32-bit lane u of p_2 = madd(p16_2, scales_2) (lines 697, 702). -/
def iq4_p32_2 (x : block_iq4_xs) (y : block_q8_K) (j u : ℕ) : ℤ :=
  wrap32 (iq4_p16_2 x y j (2 * u) * iq4_sc x (2 * j + 1) +
          iq4_p16_2 x y j (2 * u + 1) * iq4_sc x (2 * j + 1))

/-- 32-bit lane u of sumi after the first j 64-groups (line 703). -/
def iq4_sumi (x : block_iq4_xs) (y : block_q8_K) : ℕ → ℕ → ℤ
  | 0, _ => 0
  | j + 1, u => wrap32 (wrap32 (iq4_p32_1 x y j u + iq4_p32_2 x y j u) + iq4_sumi x y j u)

/-- Float lane u of accum after nb super-blocks (lines 706-709). -/
def iq4_accum (x : ℕ → block_iq4_xs) (y : ℕ → block_q8_K) : ℕ → ℕ → ℚ
  | 0, _ => 0
  | i + 1, u => iq4_accum x y i u + ((x i).d * (y i).d) * (iq4_sumi (x i) (y i) 4 u : ℤ)

/-- The value the IQ4_XS micro-kernel writes to C for one (row, column)
pair over nb super-blocks (line 713). -/
def mul_mat_iq4_xs_q8_K (nb : ℕ) (x : ℕ → block_iq4_xs) (y : ℕ → block_q8_K) : ℚ :=
  hsum_float_8 (iq4_accum x y nb)

theorem iq4_sumi_congr (x : block_iq4_xs) (b b2 : block_q8_K) (h : b.qs = b2.qs) :
    ∀ n u, iq4_sumi x b n u = iq4_sumi x b2 n u
  | 0, _ => rfl
  | n + 1, u => by
      simp only [iq4_sumi, iq4_p32_1, iq4_p32_2, iq4_p16_1, iq4_p16_2, h,
        iq4_sumi_congr x b b2 h n u]

theorem iq4_accum_congr (x : ℕ → block_iq4_xs) (y y2 : ℕ → block_q8_K)
    (hd : ∀ i, (y i).d = (y2 i).d) (hq : ∀ i, (y i).qs = (y2 i).qs) :
    ∀ nb u, iq4_accum x y nb u = iq4_accum x y2 nb u
  | 0, _ => rfl
  | nb + 1, u => by
      simp only [iq4_accum, iq4_accum_congr x y y2 hd hq nb u, hd nb,
        iq4_sumi_congr (x nb) (y nb) (y2 nb) (hq nb) 4 u]

/-- C9.  The IQ4_XS kernel never reads the bsums field: for any two Q8_K
operands whose super-blocks agree on d and qs but carry arbitrary
different bsums, the value written to C is identical (for the per-column
computation shared by all M in {1, 2, 4, 8}); the floating correction of
IQ4_XS is zero. -/
theorem c9_bsums_independence (nb : ℕ) (x : ℕ → block_iq4_xs) (y y2 : ℕ → block_q8_K)
    (hd : ∀ i, (y i).d = (y2 i).d) (hq : ∀ i, (y i).qs = (y2 i).qs) :
    mul_mat_iq4_xs_q8_K nb x y = mul_mat_iq4_xs_q8_K nb x y2 := by
  unfold mul_mat_iq4_xs_q8_K hsum_float_8
  simp only [iq4_accum_congr x y y2 hd hq nb]

/-- IQ4_XS block for the C9 witness. -/
def c9x : ℕ → block_iq4_xs := fun _ =>
  { d := 1, scales_h := 5, scales_l := fun _ => 20, qs := fun k => k % 256 }

/-- Q8_K column for the C9 witness, bsums all zero. -/
def c9y : ℕ → block_q8_K := fun _ =>
  { d := 3, qs := fun k => (7 * k) % 256, bsums := fun _ => 0 }

/-- Q8_K column for the C9 witness: same d and qs, bsums all 77. -/
def c9y2 : ℕ → block_q8_K := fun _ =>
  { d := 3, qs := fun k => (7 * k) % 256, bsums := fun _ => 77 }

theorem c9_bsums_independence_witness :
    mul_mat_iq4_xs_q8_K 1 c9x c9y = mul_mat_iq4_xs_q8_K 1 c9x c9y2 :=
  c9_bsums_independence 1 c9x c9y c9y2 (fun _ => rfl) (fun _ => rfl)

/-!  Cross-validation of the kernel embeddings on concrete inputs with
independently computed expected values. -/

/-- Q6_K block of the specification's end-to-end scenario 2: d = 1, all
sub-block scales 1, all ql bytes 0x22, qh zero (every quant is 2). -/
def q6vx : ℕ → block_q6_K := fun _ =>
  { ql := fun _ => 34, qh := fun _ => 0, scales := fun _ => 1, d := 1 }

/-- Q8_K column of scenario 2: d = 1, every quant 1, bsums 16 per group. -/
def q6vy : ℕ → block_q8_K := fun _ =>
  { d := 1, qs := fun _ => 1, bsums := fun _ => 16 }

/-- The Q6_K model reproduces the expected value of the specification's
end-to-end scenario 2: C = 256 * (2 - 32) * 1 = -7680. -/
theorem q6_model_scenario2 : mul_mat_q6_K_q8_K 1 q6vx q6vy = -7680 := by
  have hs : q6_sumi (q6vx 0) (q6vy 0) 2 0 = 64 ∧ q6_sumi (q6vx 0) (q6vy 0) 2 1 = 64 ∧
      q6_sumi (q6vx 0) (q6vy 0) 2 2 = 64 ∧ q6_sumi (q6vx 0) (q6vy 0) 2 3 = 64 ∧
      q6_sumi (q6vx 0) (q6vy 0) 2 4 = 64 ∧ q6_sumi (q6vx 0) (q6vy 0) 2 5 = 64 ∧
      q6_sumi (q6vx 0) (q6vy 0) 2 6 = 64 ∧ q6_sumi (q6vx 0) (q6vy 0) 2 7 = 64 := by decide
  have hp : q6_prod (q6vx 0) (q6vy 0) 0 = 32 ∧ q6_prod (q6vx 0) (q6vy 0) 1 = 32 ∧
      q6_prod (q6vx 0) (q6vy 0) 2 = 32 ∧ q6_prod (q6vx 0) (q6vy 0) 3 = 32 ∧
      q6_prod (q6vx 0) (q6vy 0) 4 = 32 ∧ q6_prod (q6vx 0) (q6vy 0) 5 = 32 ∧
      q6_prod (q6vx 0) (q6vy 0) 6 = 32 ∧ q6_prod (q6vx 0) (q6vy 0) 7 = 32 := by decide
  obtain ⟨s0, s1, s2, s3, s4, s5, s6, s7⟩ := hs
  obtain ⟨p0, p1, p2, p3, p4, p5, p6, p7⟩ := hp
  have hxd : (q6vx 0).d = 1 := rfl
  have hyd : (q6vy 0).d = 1 := rfl
  norm_num [mul_mat_q6_K_q8_K, hsum_float_8, q6_accd, q6_accm,
    s0, s1, s2, s3, s4, s5, s6, s7, p0, p1, p2, p3, p4, p5, p6, p7, hxd, hyd]

/-- Q6_K block exercising the scale-broadcast lane mapping: distinct
sub-block scales sc_j = j + 1, a single quant of value 5 at element 200
(128-half 1, plane 2, byte 8: ql[72] = 0x50), which lies in sub-block 12. -/
def q6sx : ℕ → block_q6_K := fun _ =>
  { ql := fun k => if k = 72 then 80 else 0
    qh := fun _ => 0
    scales := fun j => j + 1
    d := 1 }

/-- Q8_K column with a single quant of 1 at element 200 (group 12). -/
def q6sy : ℕ → block_q8_K := fun _ =>
  { d := 1
    qs := fun k => if k = 200 then 1 else 0
    bsums := fun j => if j = 12 then 1 else 0 }

/-- The Q6_K model pairs element 200 with sub-block scale 12:
C = sc_12 * 5 * 1 - 32 * sc_12 * 1 = 13 * 5 - 32 * 13 = -351.  A wrong
scale-lane assignment would pick a different sc_j and a different value. -/
theorem q6_model_scale_mapping : mul_mat_q6_K_q8_K 1 q6sx q6sy = -351 := by
  have hs : q6_sumi (q6sx 0) (q6sy 0) 2 0 = 0 ∧ q6_sumi (q6sx 0) (q6sy 0) 2 1 = 0 ∧
      q6_sumi (q6sx 0) (q6sy 0) 2 2 = 65 ∧ q6_sumi (q6sx 0) (q6sy 0) 2 3 = 0 ∧
      q6_sumi (q6sx 0) (q6sy 0) 2 4 = 0 ∧ q6_sumi (q6sx 0) (q6sy 0) 2 5 = 0 ∧
      q6_sumi (q6sx 0) (q6sy 0) 2 6 = 0 ∧ q6_sumi (q6sx 0) (q6sy 0) 2 7 = 0 := by decide
  have hp : q6_prod (q6sx 0) (q6sy 0) 0 = 0 ∧ q6_prod (q6sx 0) (q6sy 0) 1 = 0 ∧
      q6_prod (q6sx 0) (q6sy 0) 2 = 0 ∧ q6_prod (q6sx 0) (q6sy 0) 3 = 0 ∧
      q6_prod (q6sx 0) (q6sy 0) 4 = 0 ∧ q6_prod (q6sx 0) (q6sy 0) 5 = 0 ∧
      q6_prod (q6sx 0) (q6sy 0) 6 = 13 ∧ q6_prod (q6sx 0) (q6sy 0) 7 = 0 := by decide
  obtain ⟨s0, s1, s2, s3, s4, s5, s6, s7⟩ := hs
  obtain ⟨p0, p1, p2, p3, p4, p5, p6, p7⟩ := hp
  have hxd : (q6sx 0).d = 1 := rfl
  have hyd : (q6sy 0).d = 1 := rfl
  norm_num [mul_mat_q6_K_q8_K, hsum_float_8, q6_accd, q6_accm,
    s0, s1, s2, s3, s4, s5, s6, s7, p0, p1, p2, p3, p4, p5, p6, p7, hxd, hyd]

/-- Q3_K block exercising the scale-broadcast lane mapping: scales byte 4
is 0xD4 so sc_4 = 4 - 32 and sc_12 = 13 - 32 = -19 while all other
sub-block scales are -32; a single quant of 3 at element 200 (qs[40] bits
4-5), which lies in sub-block 12. -/
def q3sx : ℕ → block_q3_K := fun _ =>
  { hmask := fun _ => 0
    qs := fun k => if k = 40 then 48 else 0
    scales := fun j => if j = 4 then 212 else 0
    d := 1 }

/-- Q8_K column with a single quant of 1 at element 200 (group 12). -/
def q3sy : ℕ → block_q8_K := fun _ =>
  { d := 1
    qs := fun k => if k = 200 then 1 else 0
    bsums := fun j => if j = 12 then 1 else 0 }

/-- The Q3_K model pairs element 200 with sub-block scale 12:
C = sc_12 * 3 * 1 - 4 * sc_12 * 1 = -19 * 3 + 76 = 19. -/
theorem q3_model_scale_mapping : mul_mat_q3_K_q8_K 1 q3sx q3sy = 19 := by
  have hs : q3_sumi (q3sx 0) (q3sy 0) 2 0 = 0 ∧ q3_sumi (q3sx 0) (q3sy 0) 2 1 = 0 ∧
      q3_sumi (q3sx 0) (q3sy 0) 2 2 = -57 ∧ q3_sumi (q3sx 0) (q3sy 0) 2 3 = 0 ∧
      q3_sumi (q3sx 0) (q3sy 0) 2 4 = 0 ∧ q3_sumi (q3sx 0) (q3sy 0) 2 5 = 0 ∧
      q3_sumi (q3sx 0) (q3sy 0) 2 6 = 0 ∧ q3_sumi (q3sx 0) (q3sy 0) 2 7 = 0 := by decide
  have hp : q3_prod (q3sx 0) (q3sy 0) 0 = 0 ∧ q3_prod (q3sx 0) (q3sy 0) 1 = 0 ∧
      q3_prod (q3sx 0) (q3sy 0) 2 = 0 ∧ q3_prod (q3sx 0) (q3sy 0) 3 = 0 ∧
      q3_prod (q3sx 0) (q3sy 0) 4 = 0 ∧ q3_prod (q3sx 0) (q3sy 0) 5 = 0 ∧
      q3_prod (q3sx 0) (q3sy 0) 6 = -19 ∧ q3_prod (q3sx 0) (q3sy 0) 7 = 0 := by decide
  obtain ⟨s0, s1, s2, s3, s4, s5, s6, s7⟩ := hs
  obtain ⟨p0, p1, p2, p3, p4, p5, p6, p7⟩ := hp
  have hxd : (q3sx 0).d = 1 := rfl
  have hyd : (q3sy 0).d = 1 := rfl
  norm_num [mul_mat_q3_K_q8_K, hsum_float_8, q3_accd, q3_accm,
    s0, s1, s2, s3, s4, s5, s6, s7, p0, p1, p2, p3, p4, p5, p6, p7, hxd, hyd]

/-- Q4_K block exercising the min path: d = 1, dmin = 1, scales byte 4
equal to 2, so min_0 = 2 (a byte of aux32[2]) and all scales are zero. -/
def q4mx : ℕ → block_q4_K := fun _ =>
  { d := 1
    dmin := 1
    scales := fun j => if j = 4 then 2 else 0
    qs := fun _ => 0 }

/-- Q8_K column with a single quant of 1 at element 0 (bsums[0] = 1). -/
def q4my : ℕ → block_q8_K := fun _ =>
  { d := 1
    qs := fun k => if k = 0 then 1 else 0
    bsums := fun j => if j = 0 then 1 else 0 }

/-- Both Q4_K shapes produce the min correction
C = -dmin * d_B * min_0 * (bsum_0 + bsum_1) = -2.  Under the
specification's claimed pairing min_0 would decode from aux32[1] and
vanish here, giving 0 instead. -/
theorem q4_model_min_path :
    mul_mat_q4_K_q8_K_lo 1 q4mx q4my = -2 ∧ mul_mat_q4_K_q8_K_hi 1 q4mx q4my = -2 := by
  have hs : q4_sumi0 (q4mx 0) (q4my 0) 4 0 = 0 ∧ q4_sumi0 (q4mx 0) (q4my 0) 4 1 = 0 ∧
      q4_sumi0 (q4mx 0) (q4my 0) 4 2 = 0 ∧ q4_sumi0 (q4mx 0) (q4my 0) 4 3 = 0 ∧
      q4_sumi0 (q4mx 0) (q4my 0) 4 4 = 0 ∧ q4_sumi0 (q4mx 0) (q4my 0) 4 5 = 0 ∧
      q4_sumi0 (q4mx 0) (q4my 0) 4 6 = 0 ∧ q4_sumi0 (q4mx 0) (q4my 0) 4 7 = 0 := by decide
  have hs1 : q4_sumi1 (q4mx 0) (q4my 0) 4 0 = 0 ∧ q4_sumi1 (q4mx 0) (q4my 0) 4 1 = 0 ∧
      q4_sumi1 (q4mx 0) (q4my 0) 4 2 = 0 ∧ q4_sumi1 (q4mx 0) (q4my 0) 4 3 = 0 ∧
      q4_sumi1 (q4mx 0) (q4my 0) 4 4 = 0 ∧ q4_sumi1 (q4mx 0) (q4my 0) 4 5 = 0 ∧
      q4_sumi1 (q4mx 0) (q4my 0) 4 6 = 0 ∧ q4_sumi1 (q4mx 0) (q4my 0) 4 7 = 0 := by decide
  have hs2 : q4_sumi_hi (q4mx 0) (q4my 0) 4 0 = 0 ∧ q4_sumi_hi (q4mx 0) (q4my 0) 4 1 = 0 ∧
      q4_sumi_hi (q4mx 0) (q4my 0) 4 2 = 0 ∧ q4_sumi_hi (q4mx 0) (q4my 0) 4 3 = 0 ∧
      q4_sumi_hi (q4mx 0) (q4my 0) 4 4 = 0 ∧ q4_sumi_hi (q4mx 0) (q4my 0) 4 5 = 0 ∧
      q4_sumi_hi (q4mx 0) (q4my 0) 4 6 = 0 ∧ q4_sumi_hi (q4mx 0) (q4my 0) 4 7 = 0 := by decide
  have hm : q4_prod (q4mx 0) (q4my 0) 0 = 2 ∧ q4_prod (q4mx 0) (q4my 0) 1 = 0 ∧
      q4_prod (q4mx 0) (q4my 0) 2 = 0 ∧ q4_prod (q4mx 0) (q4my 0) 3 = 0 := by decide
  obtain ⟨a0, a1, a2, a3, a4, a5, a6, a7⟩ := hs
  obtain ⟨b0, b1, b2, b3, b4, b5, b6, b7⟩ := hs1
  obtain ⟨d0, d1, d2, d3, d4, d5, d6, d7⟩ := hs2
  obtain ⟨m0, m1, m2, m3⟩ := hm
  have hxd : (q4mx 0).d = 1 := rfl
  have hxm : (q4mx 0).dmin = 1 := rfl
  have hyd : (q4my 0).d = 1 := rfl
  norm_num [mul_mat_q4_K_q8_K_lo, mul_mat_q4_K_q8_K_hi, hsum_float_8, hsum_float_4,
    q4_accd0, q4_accd1, q4_accd_hi, q4_accm, a0, a1, a2, a3, a4, a5, a6, a7,
    b0, b1, b2, b3, b4, b5, b6, b7, d0, d1, d2, d3, d4, d5, d6, d7,
    m0, m1, m2, m3, hxd, hxm, hyd]

/-- IQ4_XS block with all scale fields zero (every sub-block scale -32)
and all quant indices 0 (every quant value -127). -/
def iq4vx : ℕ → block_iq4_xs := fun _ =>
  { d := 1, scales_h := 0, scales_l := fun _ => 0, qs := fun _ => 0 }

/-- Q8_K column with every quant 1. -/
def iq4vy : ℕ → block_q8_K := fun _ =>
  { d := 1, qs := fun _ => 1, bsums := fun _ => 16 }

/-- The IQ4_XS model reproduces the exact dense value
C = (-32) * (-127) * 256 = 1040384: the codebook lookup, the signed
multiply trick and the scale bias all feed through. -/
theorem iq4_model_dense : mul_mat_iq4_xs_q8_K 1 iq4vx iq4vy = 1040384 := by
  have hs : iq4_sumi (iq4vx 0) (iq4vy 0) 4 0 = 130048 ∧
      iq4_sumi (iq4vx 0) (iq4vy 0) 4 1 = 130048 ∧
      iq4_sumi (iq4vx 0) (iq4vy 0) 4 2 = 130048 ∧
      iq4_sumi (iq4vx 0) (iq4vy 0) 4 3 = 130048 ∧
      iq4_sumi (iq4vx 0) (iq4vy 0) 4 4 = 130048 ∧
      iq4_sumi (iq4vx 0) (iq4vy 0) 4 5 = 130048 ∧
      iq4_sumi (iq4vx 0) (iq4vy 0) 4 6 = 130048 ∧
      iq4_sumi (iq4vx 0) (iq4vy 0) 4 7 = 130048 := by decide
  obtain ⟨s0, s1, s2, s3, s4, s5, s6, s7⟩ := hs
  have hxd : (iq4vx 0).d = 1 := rfl
  have hyd : (iq4vy 0).d = 1 := rfl
  norm_num [mul_mat_iq4_xs_q8_K, hsum_float_8, iq4_accum,
    s0, s1, s2, s3, s4, s5, s6, s7, hxd, hyd]

/-!  Tiling shim mul_mat_NxM (iqk_mul_mat.cpp lines 78-94) and entry point
iqk_mul_mat (lines 726-787).  The shim is modelled by the list of
(column offset, M) sub-calls it performs; the entry point by its boolean
result together with the list of (row, column) C positions it writes.  The
numeric values written are given by the per-column kernel models above. -/

/-- The sub-calls of one process(mm, step) pass: n_step = nrc_y / step
calls, call iy working on columns [step * iy, step * iy + step) relative
to the running base (lines 83-85). -/
def stepCalls (off step k : ℕ) : List (ℕ × ℕ) :=
  (List.range k).map fun i => (off + step * i, step)

/-- Remaining nrc_y after one process(mm, step) pass
(nrc_y -= step * n_step, line 87). -/
def peel_rem (step rem : ℕ) : ℕ := rem - step * (rem / step)

/-- The (column offset, M) sub-calls performed by mul_mat_NxM for ny
columns: process with step 8, then 4, then 2, then 1, each pass advancing
the base by step * n_step and stopping early when the remaining count
reaches zero (line 93).  All four kernel pointers are non-null in every
dispatch case. -/
def mul_mat_NxM_segs (ny : ℕ) : List (ℕ × ℕ) :=
  if 8 ≤ ny ∧ peel_rem 8 ny = 0 then stepCalls 0 8 (ny / 8)
  else if 4 ≤ peel_rem 8 ny ∧ peel_rem 4 (peel_rem 8 ny) = 0 then
    stepCalls 0 8 (ny / 8) ++ stepCalls (8 * (ny / 8)) 4 (peel_rem 8 ny / 4)
  else if 2 ≤ peel_rem 4 (peel_rem 8 ny) ∧ peel_rem 2 (peel_rem 4 (peel_rem 8 ny)) = 0 then
    stepCalls 0 8 (ny / 8) ++ stepCalls (8 * (ny / 8)) 4 (peel_rem 8 ny / 4) ++
    stepCalls (8 * (ny / 8) + 4 * (peel_rem 8 ny / 4)) 2 (peel_rem 4 (peel_rem 8 ny) / 2)
  else
    stepCalls 0 8 (ny / 8) ++ stepCalls (8 * (ny / 8)) 4 (peel_rem 8 ny / 4) ++
    stepCalls (8 * (ny / 8) + 4 * (peel_rem 8 ny / 4)) 2 (peel_rem 4 (peel_rem 8 ny) / 2) ++
    stepCalls (8 * (ny / 8) + 4 * (peel_rem 8 ny / 4) + 2 * (peel_rem 4 (peel_rem 8 ny) / 2))
      1 (peel_rem 2 (peel_rem 4 (peel_rem 8 ny)) / 1)

/-- The columns covered by a list of (offset, M) sub-calls, in call order. -/
def colsOf (l : List (ℕ × ℕ)) : List ℕ := l.flatMap fun p => List.range' p.1 p.2

theorem range1_append (s m n : ℕ) :
    List.range' s m ++ List.range' (s + m) n = List.range' s (m + n) := by
  have h := List.range'_append s m n 1
  rw [one_mul] at h
  rw [Nat.add_comm n m] at h
  exact h

theorem stepCalls_cols (off step k : ℕ) :
    colsOf (stepCalls off step k) = List.range' off (step * k) := by
  induction k with
  | zero => simp [stepCalls, colsOf]
  | succ n ih =>
      have hsplit : stepCalls off step (n + 1) =
          stepCalls off step n ++ [(off + step * n, step)] := by
        unfold stepCalls
        rw [List.range_succ, List.map_append, List.map_cons, List.map_nil]
      rw [hsplit]
      unfold colsOf at ih ⊢
      rw [List.flatMap_append, ih]
      simp only [List.flatMap_cons, List.flatMap_nil, List.append_nil]
      have h := range1_append off (step * n) step
      rw [h]
      ring_nf

theorem stepCalls_snds (off step k : ℕ) :
    (stepCalls off step k).map Prod.snd = List.replicate k step := by
  unfold stepCalls
  rw [List.map_map]
  rw [show (Prod.snd ∘ fun i : ℕ => (off + step * i, step)) = Function.const ℕ step from rfl]
  rw [List.map_const, List.length_range]

theorem mul_mat_NxM_spec (ny : ℕ) :
    colsOf (mul_mat_NxM_segs ny) = List.range ny ∧
    (mul_mat_NxM_segs ny).map Prod.snd =
      List.replicate (ny / 8) 8 ++ List.replicate (ny % 8 / 4) 4 ++
      List.replicate (ny % 4 / 2) 2 ++ List.replicate (ny % 2) 1 := by
  have d8 := Nat.div_add_mod ny 8
  have m8 : ny % 8 < 8 := Nat.mod_lt _ (by norm_num)
  have d4 := Nat.div_add_mod (ny % 8) 4
  have m4 : ny % 8 % 4 < 4 := Nat.mod_lt _ (by norm_num)
  have d2 := Nat.div_add_mod (ny % 4) 2
  have m2 : ny % 4 % 2 < 2 := Nat.mod_lt _ (by norm_num)
  have e84 : ny % 8 % 4 = ny % 4 := Nat.mod_mod_of_dvd ny (by norm_num)
  have e42 : ny % 4 % 2 = ny % 2 := Nat.mod_mod_of_dvd ny (by norm_num)
  have er8 : peel_rem 8 ny = ny % 8 := by unfold peel_rem; omega
  have er4 : peel_rem 4 (ny % 8) = ny % 4 := by unfold peel_rem; omega
  have er2 : peel_rem 2 (ny % 4) = ny % 2 := by unfold peel_rem; omega
  unfold mul_mat_NxM_segs
  rw [er8, er4, er2]
  split_ifs with h1 h2 h3
  · rw [List.range_eq_range']
    constructor
    · rw [stepCalls_cols, show 8 * (ny / 8) = ny by omega]
    · rw [stepCalls_snds, show ny % 8 / 4 = 0 by omega, show ny % 4 / 2 = 0 by omega,
        show ny % 2 = 0 by omega]
      simp
  · rw [List.range_eq_range']
    constructor
    · unfold colsOf
      rw [List.flatMap_append]
      show colsOf _ ++ colsOf _ = _
      rw [stepCalls_cols, stepCalls_cols]
      have ha := range1_append 0 (8 * (ny / 8)) (4 * (ny % 8 / 4))
      simp only [Nat.zero_add] at ha
      rw [ha]
      congr 1
      omega
    · rw [List.map_append, stepCalls_snds, stepCalls_snds,
        show ny % 4 / 2 = 0 by omega, show ny % 2 = 0 by omega]
      simp
  · rw [List.range_eq_range']
    constructor
    · unfold colsOf
      rw [List.flatMap_append, List.flatMap_append]
      show colsOf _ ++ colsOf _ ++ colsOf _ = _
      rw [stepCalls_cols, stepCalls_cols, stepCalls_cols]
      have ha := range1_append 0 (8 * (ny / 8)) (4 * (ny % 8 / 4))
      have hb := range1_append 0 (8 * (ny / 8) + 4 * (ny % 8 / 4)) (2 * (ny % 4 / 2))
      simp only [Nat.zero_add] at ha hb
      rw [ha, hb]
      congr 1
      omega
    · rw [List.map_append, List.map_append, stepCalls_snds, stepCalls_snds,
        stepCalls_snds, show ny % 2 = 0 by omega]
      simp
  · rw [List.range_eq_range']
    constructor
    · unfold colsOf
      rw [List.flatMap_append, List.flatMap_append, List.flatMap_append]
      show colsOf _ ++ colsOf _ ++ colsOf _ ++ colsOf _ = _
      rw [stepCalls_cols, stepCalls_cols, stepCalls_cols, stepCalls_cols, Nat.div_one]
      have ha := range1_append 0 (8 * (ny / 8)) (4 * (ny % 8 / 4))
      have hb := range1_append 0 (8 * (ny / 8) + 4 * (ny % 8 / 4)) (2 * (ny % 4 / 2))
      have hc := range1_append 0
        (8 * (ny / 8) + 4 * (ny % 8 / 4) + 2 * (ny % 4 / 2)) (1 * (ny % 2))
      simp only [Nat.zero_add] at ha hb hc
      rw [ha, hb, hc]
      congr 1
      omega
    · rw [List.map_append, List.map_append, List.map_append, stepCalls_snds,
        stepCalls_snds, stepCalls_snds, stepCalls_snds, Nat.div_one]

/-- C8.  For every Ny the tiling shim covers the columns 0, 1, ..., Ny-1
exactly once and in increasing order (the concatenation of the column
ranges of its sub-calls is the range of Ny), and it performs exactly
floor(Ny/8) sub-calls at M = 8 followed by Ny%8/4 at M = 4, Ny%4/2 at
M = 2 and Ny%2 at M = 1 (each of the last three at most once). -/
theorem c8_column_peeling (ny : ℕ) :
    colsOf (mul_mat_NxM_segs ny) = List.range ny ∧
    (mul_mat_NxM_segs ny).map Prod.snd =
      List.replicate (ny / 8) 8 ++ List.replicate (ny % 8 / 4) 4 ++
      List.replicate (ny % 4 / 2) 2 ++ List.replicate (ny % 2) 1 :=
  mul_mat_NxM_spec ny

/-- Whether typeA is one of the six dispatched tags (lines 732-771).
Modelled from the spec: the numeric tag values come from the ambient ggml
tensor type registry, which is outside this repository; the registry
assigns Q2_K = 10, Q3_K = 11, Q4_K = 12, Q5_K = 13, Q6_K = 14,
IQ4_XS = 23. -/
def supported_type (t : ℕ) : Bool :=
  t == 10 || t == 11 || t == 12 || t == 13 || t == 14 || t == 23

/-- nrc_x = (Nx + nth - 1) / nth (line 776). -/
def iqk_nrc_x (Nx nth : ℕ) : ℕ := (Nx + nth - 1) / nth

/-- first_x = ith * nrc_x (line 777). -/
def iqk_first_x (Nx nth ith : ℕ) : ℕ := ith * iqk_nrc_x Nx nth

/-- The row count passed to the micro-kernels, after the clamp
if (first_x + nrc_x > Nx) nrc_x = Nx - first_x (line 778); this is a
signed quantity and can be negative. -/
def iqk_nrc_adj (Nx nth ith : ℕ) : ℤ :=
  if iqk_first_x Nx nth ith + iqk_nrc_x Nx nth > Nx
  then (Nx : ℤ) - iqk_first_x Nx nth ith
  else iqk_nrc_x Nx nth

/-- The (row, column) C positions written by one micro-kernel sub-call:
rows first_x + ix for ix below the (possibly nonpositive) row count, and
columns off + iy for iy below M; the row loop for ix < nrc_x runs
max(0, nrc_x) times (line 132 and its analogues). -/
def micro_writes (firstX : ℕ) (nrc : ℤ) (off step : ℕ) : List (ℕ × ℕ) :=
  (List.range nrc.toNat).flatMap fun ix =>
    (List.range step).map fun iy => (firstX + ix, off + iy)

/-- The entry point iqk_mul_mat (lines 726-787), modelled by its boolean
result and the list of C positions it writes: an unsupported tag returns
false before any work; otherwise the worker's row slice is combined with
the column peeling of mul_mat_NxM. -/
def iqk_mul_mat (Nx Ny nth ith typeA : ℕ) : Bool × List (ℕ × ℕ) :=
  if supported_type typeA = false then (false, [])
  else (true, (mul_mat_NxM_segs Ny).flatMap fun p =>
    micro_writes (iqk_first_x Nx nth ith) (iqk_nrc_adj Nx nth ith) p.1 p.2)

/-- C6.  For every value of the remaining arguments, an unsupported typeA
makes the entry point return false and write no element of C (the default
branch of the dispatch switch returns before any work). -/
theorem c6_unsupported_rejection (Nx Ny nth ith typeA : ℕ)
    (h : supported_type typeA = false) :
    iqk_mul_mat Nx Ny nth ith typeA = (false, []) := by
  simp [iqk_mul_mat, h]

theorem c6_unsupported_rejection_witness :
    iqk_mul_mat 3 4 1 0 0 = (false, []) :=
  c6_unsupported_rejection 3 4 1 0 0 rfl

theorem flatMap_const_nil {α β : Type} (l : List α) :
    (l.flatMap fun _ => ([] : List β)) = [] := by
  induction l with
  | nil => rfl
  | cons a l ih => simp [List.flatMap_cons, ih]

/-- C10.  If the calling worker's row slice is empty, that is
ith * ceil(Nx / nth) is at least Nx, then the clamped nrc_x is zero or
negative, every micro-kernel row loop runs zero times, no element of C is
written, and the entry point still returns true for a supported typeA. -/
theorem c10_empty_slice (Nx Ny nth ith typeA : ℕ)
    (hsupp : supported_type typeA = true)
    (hemp : Nx ≤ iqk_first_x Nx nth ith) :
    iqk_nrc_adj Nx nth ith ≤ 0 ∧ iqk_mul_mat Nx Ny nth ith typeA = (true, []) := by
  have hadj : iqk_nrc_adj Nx nth ith ≤ 0 := by
    unfold iqk_nrc_adj
    split
    · omega
    · omega
  have h0 : (iqk_nrc_adj Nx nth ith).toNat = 0 := by omega
  refine ⟨hadj, ?_⟩
  unfold iqk_mul_mat
  rw [hsupp]
  simp only [Bool.true_eq_false, if_false]
  unfold micro_writes
  rw [h0]
  simp only [List.range_zero, List.flatMap_nil]
  rw [flatMap_const_nil]

theorem c10_empty_slice_witness :
    iqk_nrc_adj 1 2 1 ≤ 0 ∧ iqk_mul_mat 1 3 2 1 10 = (true, []) :=
  c10_empty_slice 1 3 2 1 10 rfl (by decide)

theorem iqk_writes_mem (Nx Ny nth ith typeA r c : ℕ)
    (hsupp : supported_type typeA = true) :
    (r, c) ∈ (iqk_mul_mat Nx Ny nth ith typeA).2 ↔
      (iqk_first_x Nx nth ith ≤ r ∧
       r < iqk_first_x Nx nth ith + (iqk_nrc_adj Nx nth ith).toNat ∧ c < Ny) := by
  unfold iqk_mul_mat
  rw [hsupp]
  simp only [Bool.true_eq_false, if_false]
  rw [List.mem_flatMap]
  constructor
  · rintro ⟨p, hp, hw⟩
    unfold micro_writes at hw
    rw [List.mem_flatMap] at hw
    obtain ⟨ix, hix, hw⟩ := hw
    rw [List.mem_map] at hw
    obtain ⟨iy, hiy, heq⟩ := hw
    rw [List.mem_range] at hix hiy
    rw [Prod.mk.injEq] at heq
    obtain ⟨h1, h2⟩ := heq
    refine ⟨by omega, by omega, ?_⟩
    have hcol : c ∈ colsOf (mul_mat_NxM_segs Ny) := by
      unfold colsOf
      rw [List.mem_flatMap]
      exact ⟨p, hp, by rw [List.mem_range'_1]; omega⟩
    rw [(mul_mat_NxM_spec Ny).1, List.mem_range] at hcol
    exact hcol
  · rintro ⟨h1, h2, hc⟩
    have hcol : c ∈ colsOf (mul_mat_NxM_segs Ny) := by
      rw [(mul_mat_NxM_spec Ny).1, List.mem_range]
      exact hc
    unfold colsOf at hcol
    rw [List.mem_flatMap] at hcol
    obtain ⟨p, hp, hcp⟩ := hcol
    rw [List.mem_range'_1] at hcp
    refine ⟨p, hp, ?_⟩
    unfold micro_writes
    rw [List.mem_flatMap]
    refine ⟨r - iqk_first_x Nx nth ith, by rw [List.mem_range]; omega, ?_⟩
    rw [List.mem_map]
    refine ⟨c - p.1, by rw [List.mem_range]; omega, ?_⟩
    rw [Prod.mk.injEq]
    omega

theorem partition_core (c nth k Nx : ℕ) (hc : 1 ≤ c) (hcov : Nx ≤ nth * c)
    (hk : k < Nx) :
    ∃! i, i < nth ∧ i * c ≤ k ∧ k < min Nx (i * c + c) := by
  have hkd := Nat.div_add_mod k c
  have hkm : k % c < c := Nat.mod_lt _ (by omega)
  refine ⟨k / c, ⟨?_, ?_, ?_⟩, ?_⟩
  · by_contra hge
    push_neg at hge
    have h2 : nth * c ≤ (k / c) * c := Nat.mul_le_mul_right _ hge
    rw [Nat.mul_comm (k / c) c] at h2
    omega
  · rw [Nat.mul_comm]
    omega
  · rw [Nat.lt_min]
    refine ⟨hk, ?_⟩
    rw [Nat.mul_comm]
    omega
  · intro j hj
    obtain ⟨hj1, hj2, hj3⟩ := hj
    rw [Nat.lt_min] at hj3
    refine (Nat.div_eq_of_lt_le hj2 ?_).symm
    rw [Nat.succ_mul]
    exact hj3.2

/-- C7.  With nrc_x = ceil(Nx / nth), worker ith processes exactly the
rows [ith * nrc_x, min(Nx, (ith + 1) * nrc_x)): the clamped row count of
the model equals the length of that interval for every ith; for 1 <= Nx,
1 <= nth every row k < Nx lies in the slice of exactly one worker
ith < nth; and consequently every C entry (k, c) with k < Nx, c < Ny is
written by exactly one worker. -/
theorem c7_row_partition (Nx Ny nth k c typeA : ℕ) (hx : 1 ≤ Nx) (hn : 1 ≤ nth)
    (hk : k < Nx) (hc : c < Ny) (ht : supported_type typeA = true) :
    (∀ ith, (iqk_nrc_adj Nx nth ith).toNat =
        min Nx (iqk_first_x Nx nth ith + iqk_nrc_x Nx nth) - iqk_first_x Nx nth ith) ∧
    (∃! ith, ith < nth ∧ iqk_first_x Nx nth ith ≤ k ∧
        k < min Nx (iqk_first_x Nx nth ith + iqk_nrc_x Nx nth)) ∧
    (∃! ith, ith < nth ∧ (k, c) ∈ (iqk_mul_mat Nx Ny nth ith typeA).2) := by
  have part1 : ∀ ith, (iqk_nrc_adj Nx nth ith).toNat =
      min Nx (iqk_first_x Nx nth ith + iqk_nrc_x Nx nth) - iqk_first_x Nx nth ith := by
    intro ith
    unfold iqk_nrc_adj
    split
    · omega
    · omega
  have part2 : ∃! ith, ith < nth ∧ iqk_first_x Nx nth ith ≤ k ∧
      k < min Nx (iqk_first_x Nx nth ith + iqk_nrc_x Nx nth) := by
    have hc1 : 1 ≤ iqk_nrc_x Nx nth := by
      unfold iqk_nrc_x
      rw [Nat.one_le_div_iff (by omega)]
      omega
    have hcov : Nx ≤ nth * iqk_nrc_x Nx nth := by
      have hd := Nat.div_add_mod (Nx + nth - 1) nth
      have hm : (Nx + nth - 1) % nth < nth := Nat.mod_lt _ (by omega)
      unfold iqk_nrc_x
      omega
    unfold iqk_first_x
    exact partition_core (iqk_nrc_x Nx nth) nth k Nx hc1 hcov hk
  have hiff : ∀ ith, (k, c) ∈ (iqk_mul_mat Nx Ny nth ith typeA).2 ↔
      (iqk_first_x Nx nth ith ≤ k ∧
       k < min Nx (iqk_first_x Nx nth ith + iqk_nrc_x Nx nth)) := by
    intro ith
    rw [iqk_writes_mem Nx Ny nth ith typeA k c ht, part1 ith]
    constructor
    · rintro ⟨a, b, _⟩
      exact ⟨a, by omega⟩
    · rintro ⟨a, b⟩
      exact ⟨a, by omega, hc⟩
  refine ⟨part1, part2, ?_⟩
  obtain ⟨i, ⟨hi1, hi2, hi3⟩, hu⟩ := part2
  refine ⟨i, ⟨hi1, (hiff i).2 ⟨hi2, hi3⟩⟩, ?_⟩
  rintro j ⟨hj1, hj2⟩
  exact hu j ⟨hj1, ((hiff j).1 hj2).1, ((hiff j).1 hj2).2⟩

theorem c7_row_partition_witness :
    (∀ ith, (iqk_nrc_adj 5 2 ith).toNat =
        min 5 (iqk_first_x 5 2 ith + iqk_nrc_x 5 2) - iqk_first_x 5 2 ith) ∧
    (∃! ith, ith < 2 ∧ iqk_first_x 5 2 ith ≤ 3 ∧
        3 < min 5 (iqk_first_x 5 2 ith + iqk_nrc_x 5 2)) ∧
    (∃! ith, ith < 2 ∧ (3, 4) ∈ (iqk_mul_mat 5 7 2 ith 11).2) :=
  c7_row_partition 5 7 2 3 4 11 (by norm_num) (by norm_num) (by norm_num)
    (by norm_num) rfl

end Iqk
